import Mathlib

/-!
Verification development for the tokenizer and source reconstructor of the
`pycircular-evaluator` repository (`src/python.py`).

The Python code is embedded shallowly:

* The mutable `Lexer` object becomes a `Lexer` structure threaded through
  explicit state-passing functions.
* Python `while` loops become fuel-indexed recursive functions.  A result is
  `ok`, `fault` (a raised `SyntaxError` / failed `assert`), or `outOfFuel`
  (the fuel bound was reached before the loop finished; a loop that runs
  forever is `outOfFuel` for every fuel).
* `self.char` is `Option Char`: `some c` for a real character, `none` for the
  `EOF` sentinel string.  Where Python appends `self.char` to a character
  list, the sentinel case appends the three letters of the string "EOF",
  mirroring `chars.append(self.char)` on the sentinel value.
* `str.isalpha` / `str.isnumeric` are modeled by `Char.isAlpha` /
  `Char.isDigit`; this is exact on the ASCII inputs the claims concern.
  On the sentinel string `'EOF'`, Python's `.isalpha()` is `True` and
  `.isnumeric()` is `False`; the `Option Char` versions mirror that.
-/

/-- Python `str.isalpha` on a one-character string (ASCII fragment). -/
def pyIsAlpha (c : Char) : Bool := c.isAlpha

/-- Python `str.isnumeric` on a one-character string (ASCII fragment). -/
def pyIsNumeric (c : Char) : Bool := c.isDigit

/-- Python `'EOF'.isalpha()` is `True`; on `some c` it is `c.isalpha()`. -/
def pyStrIsAlpha : Option Char → Bool
  | some c => pyIsAlpha c
  | none => true

/-- Python `'EOF'.isnumeric()` is `False`; on `some c` it is `c.isnumeric()`. -/
def pyStrIsNumeric : Option Char → Bool
  | some c => pyIsNumeric c
  | none => false

/-- The characters Python appends for `chars.append(self.char)`:
the character itself, or the letters of the sentinel string `'EOF'`. -/
def charChars : Option Char → List Char
  | some c => [c]
  | none => ['E', 'O', 'F']

/-- The single-quote character `'` (written via its code point to keep the
source free of tricky quote literals). -/
def squoteChar : Char := Char.ofNat 39

/-- The double-quote character `"`. -/
def dquoteChar : Char := Char.ofNat 34

/-- The left-brace character. -/
def lbraceChar : Char := Char.ofNat 123

/-- The right-brace character. -/
def rbraceChar : Char := Char.ofNat 125

/-- `TokenKind` from `src/python.py`: the closed set of token tags.  Fixed
symbols keep their spelling via `kindText`; the `instance_*` tags are the
variable-content kinds. -/
inductive TokenKind
  | lparen | rparen | lbracket | rbracket | lbrace | rbrace
  | eq | eqEq | gt | lt | slash | slashSlash
  | plus | minus | star | percent | hash | starStar
  | gtEq | ltEq | plusEq | minusEq | slashEq | starEq | percentEq
  | bangEq | arrow | pipe | colon | colonEq
  | squote | dquote | dot | comma | fKind | underscore
  | instance_keyword | instance_string | instance_number
  | instance_name | instance_comment | instance_indent
deriving DecidableEq

/-- The literal string value of each `TokenKind` member of the Python
`Literal[...]` union (`'('`, `'=='`, `'instance_keyword'`, ...). -/
def kindText : TokenKind → String
  | .lparen => "("
  | .rparen => ")"
  | .lbracket => "["
  | .rbracket => "]"
  | .lbrace => String.mk [lbraceChar]
  | .rbrace => String.mk [rbraceChar]
  | .eq => "="
  | .eqEq => "=="
  | .gt => ">"
  | .lt => "<"
  | .slash => "/"
  | .slashSlash => "//"
  | .plus => "+"
  | .minus => "-"
  | .star => "*"
  | .percent => "%"
  | .hash => "#"
  | .starStar => "**"
  | .gtEq => ">="
  | .ltEq => "<="
  | .plusEq => "+="
  | .minusEq => "-="
  | .slashEq => "/="
  | .starEq => "*="
  | .percentEq => "%="
  | .bangEq => "!="
  | .arrow => "->"
  | .pipe => "|"
  | .colon => ":"
  | .colonEq => ":="
  | .squote => String.mk [squoteChar]
  | .dquote => String.mk [dquoteChar]
  | .dot => "."
  | .comma => ","
  | .fKind => "f"
  | .underscore => "_"
  | .instance_keyword => "instance_keyword"
  | .instance_string => "instance_string"
  | .instance_number => "instance_number"
  | .instance_name => "instance_name"
  | .instance_comment => "instance_comment"
  | .instance_indent => "instance_indent"

/-- `KEYWORDS` from `src/python.py`. -/
def KEYWORDS : List String :=
  ["if", "else", "elif", "match", "case", "for", "while", "is", "as",
   "def", "class", "return", "from", "import", "None", "True", "False",
   "print", "with", "open", "int", "float", "str", "repr", "len", "range",
   "enumerate", "max", "min", "self", "assert", "raise", "Exception",
   "SyntaxError", "__name__"]

/-- `Token` from `src/python.py`: a positioned token.  `line`/`col` are
1-based; `«instance»` is the optional literal payload. -/
structure Token where
  line : Nat
  col : Nat
  kind : TokenKind
  «instance» : Option String
deriving DecidableEq

/-- The mutable state of the Python `Lexer` object.  `src` is the input text
as a character list; `char` is `self.char` (`none` for the `EOF` sentinel). -/
structure Lexer where
  src : List Char
  pos : Nat
  line : Nat
  col : Nat
  line_start : Nat
  col_start : Nat
  char : Option Char
  tokens : List Token
deriving DecidableEq

/-- `Lexer.__init__`: `self.char = self.src[self.pos] if self.src else EOF`. -/
def Lexer.init (s : String) : Lexer :=
  let src := s.toList
  { src := src, pos := 0, line := 1, col := 1, line_start := 1, col_start := 1,
    char := src.get? 0, tokens := [] }

/-- The raised-error taxonomy: a failed `assert` in `eat_expecting`, the
`Unexpected char` `SyntaxError`, and the `Unexpected indent` `SyntaxError`. -/
inductive LexError
  | assertionFailed (char : Option Char) (expectation : Char) (line col : Nat)
  | unexpectedChar (char : Option Char) (line col : Nat)
  | unexpectedIndent (line : Nat)
deriving DecidableEq

/-- Result of running a fuel-bounded piece of the scanner: a value, a raised
fault, or fuel exhaustion (the Python loop did not finish within the bound). -/
inductive LexRes (α : Type)
  | ok (a : α)
  | fault (e : LexError)
  | outOfFuel
deriving DecidableEq

/-- `Lexer.push_token`: append `Token(self.line_start, self.col_start, kind,
instance)`. -/
def Lexer.push_token (l : Lexer) (kind : TokenKind) (inst : Option String) :
    Lexer :=
  { l with tokens := l.tokens ++ [⟨l.line_start, l.col_start, kind, inst⟩] }

/-- `Lexer.eat`: advance `pos`/`col`; crossing a newline bumps `line`, resets
`col` to 1 and resets the token-start snapshot; then refresh `char` (the
`EOF` sentinel past the end). -/
def Lexer.eat (l : Lexer) : Lexer :=
  let pos := l.pos + 1
  let st :=
    if l.char = some '\n' then
      { l with pos := pos, line := l.line + 1, col := 1,
               line_start := l.line + 1, col_start := 1 }
    else
      { l with pos := pos, col := l.col + 1 }
  { st with char := st.src.get? pos }

/-- `Lexer.peek`: the next character, or `None` past the end. -/
def Lexer.peek (l : Lexer) : Option Char := l.src.get? (l.pos + 1)

/-- `Lexer.eat_expecting`: `assert self.char == expectation` then `eat`;
a mismatch is a fatal `AssertionError`. -/
def Lexer.eat_expecting (l : Lexer) (expectation : Char) : LexRes Lexer :=
  if l.char = some expectation then .ok l.eat
  else .fault (.assertionFailed l.char expectation l.line l.col)

/-- `Lexer.syntax_error_on_char`: the `Unexpected char ...` fault. -/
def Lexer.syntax_error_on_char (l : Lexer) : LexError :=
  .unexpectedChar l.char l.line l.col

/-- The `while self.char != start_char` loop of `Lexer.lex_string`:
accumulate characters until the quote recurs.  At the end of input the loop
keeps appending the sentinel and never stops, so every fuel yields
`outOfFuel`. -/
def Lexer.lex_string_loop : Nat → Char → List Char → Lexer →
    LexRes (List Char × Lexer)
  | 0, _, _, _ => .outOfFuel
  | fuel + 1, start_char, chars, l =>
    if l.char = some start_char then .ok (chars, l)
    else Lexer.lex_string_loop fuel start_char (chars ++ charChars l.char) l.eat

/-- `Lexer.lex_string`: eat the opening quote, scan to the closing quote,
emit an `instance_string` token whose literal is quote-delimited, then eat
the closing quote with confirmed expectation. -/
def Lexer.lex_string (fuel : Nat) (start_char : Char) (l : Lexer) :
    LexRes Lexer :=
  match Lexer.lex_string_loop fuel start_char [] l.eat with
  | .ok (chars, l') =>
      let inst := String.mk (start_char :: (chars ++ [start_char]))
      (l'.push_token .instance_string (some inst)).eat_expecting start_char
  | .fault e => .fault e
  | .outOfFuel => .outOfFuel

/-- The greedy loop of `Lexer.lex_name_or_keyword`:
`while self.pos < len(self.src) and (isalpha or isnumeric or '_')`. -/
def Lexer.lex_name_loop : Nat → List Char → Lexer → LexRes (List Char × Lexer)
  | 0, _, _ => .outOfFuel
  | fuel + 1, chars, l =>
    if l.pos < l.src.length then
      if pyStrIsAlpha l.char || pyStrIsNumeric l.char || l.char == some '_' then
        Lexer.lex_name_loop fuel (chars ++ charChars l.char) l.eat
      else .ok (chars, l)
    else .ok (chars, l)

/-- `Lexer.lex_name_or_keyword`: capture the run, then classify against
`KEYWORDS` (membership gives `instance_keyword`, otherwise
`instance_name`); the literal is the captured text. -/
def Lexer.lex_name_or_keyword (fuel : Nat) (l : Lexer) : LexRes Lexer :=
  match Lexer.lex_name_loop fuel [] l with
  | .ok (chars, l') =>
      let inst := String.mk chars
      let kind : TokenKind :=
        if KEYWORDS.contains inst then .instance_keyword else .instance_name
      .ok (l'.push_token kind (some inst))
  | .fault e => .fault e
  | .outOfFuel => .outOfFuel

/-- The greedy loop of `Lexer.lex_number`:
`while self.pos < len(self.src) and (isnumeric or '.')`. -/
def Lexer.lex_number_loop : Nat → List Char → Lexer →
    LexRes (List Char × Lexer)
  | 0, _, _ => .outOfFuel
  | fuel + 1, chars, l =>
    if l.pos < l.src.length then
      if pyStrIsNumeric l.char || l.char == some '.' then
        Lexer.lex_number_loop fuel (chars ++ charChars l.char) l.eat
      else .ok (chars, l)
    else .ok (chars, l)

/-- `Lexer.lex_number`: capture the raw digit/dot run as an
`instance_number` token. -/
def Lexer.lex_number (fuel : Nat) (l : Lexer) : LexRes Lexer :=
  match Lexer.lex_number_loop fuel [] l with
  | .ok (chars, l') => .ok (l'.push_token .instance_number (some (String.mk chars)))
  | .fault e => .fault e
  | .outOfFuel => .outOfFuel

/-- The loop of `Lexer.lex_comment`:
`while self.pos < len(self.src) and self.char != '\n'`. -/
def Lexer.lex_comment_loop : Nat → List Char → Lexer →
    LexRes (List Char × Lexer)
  | 0, _, _ => .outOfFuel
  | fuel + 1, chars, l =>
    if l.pos < l.src.length then
      if l.char ≠ some '\n' then
        Lexer.lex_comment_loop fuel (chars ++ charChars l.char) l.eat
      else .ok (chars, l)
    else .ok (chars, l)

/-- `Lexer.lex_comment`: eat `#` with confirmed expectation, capture up to
the next newline or end of input, emit an `instance_comment` token. -/
def Lexer.lex_comment (fuel : Nat) (l : Lexer) : LexRes Lexer :=
  match l.eat_expecting '#' with
  | .ok l' =>
      match Lexer.lex_comment_loop fuel [] l' with
      | .ok (chars, l'') =>
          .ok (l''.push_token .instance_comment (some (String.mk chars)))
      | .fault e => .fault e
      | .outOfFuel => .outOfFuel
  | .fault e => .fault e
  | .outOfFuel => .outOfFuel

/-- The counting loop of `Lexer.lex_indentation`: `while self.char == ' '`. -/
def Lexer.lex_indentation_loop : Nat → Nat → Lexer → LexRes (Nat × Lexer)
  | 0, _, _ => .outOfFuel
  | fuel + 1, num_spaces, l =>
    if l.char = some ' ' then
      Lexer.lex_indentation_loop fuel (num_spaces + 1) l.eat
    else .ok (num_spaces, l)

/-- `for _ in range(num_indents): self.push_token('instance_indent')`. -/
def Lexer.pushIndents : Nat → Lexer → Lexer
  | 0, l => l
  | n + 1, l => Lexer.pushIndents n (l.push_token .instance_indent none)

/-- `Lexer.lex_indentation`: count the leading spaces; a count that is not a
multiple of 4 raises `Unexpected indent on line ...`; otherwise emit
`count / 4` `instance_indent` tokens. -/
def Lexer.lex_indentation (fuel : Nat) (l : Lexer) : LexRes Lexer :=
  match Lexer.lex_indentation_loop fuel 0 l with
  | .ok (num_spaces, l') =>
      if num_spaces % 4 ≠ 0 then .fault (.unexpectedIndent l'.line)
      else .ok (Lexer.pushIndents (num_spaces / 4) l')
  | .fault e => .fault e
  | .outOfFuel => .outOfFuel

/-- The dispatch of one iteration of the `while` loop of `Lexer.lex`, on
`self.char` exactly in the source's `match` order (`'\n'`, `' '`, the
operator-leading characters with one-character lookahead, the bare symbols,
quotes, the identifier guard, the numeric guard, `'#'`, and the fatal
default). -/
def Lexer.lex_dispatch (fuel : Nat) (l : Lexer) : LexRes Lexer :=
  if l.char = some '\n' then
    Lexer.lex_indentation fuel l.eat
  else if l.char = some ' ' then
    .ok l.eat
  else if l.char = some '=' then
    match l.peek with
    | some '=' =>
        match (l.push_token .eqEq none).eat_expecting '=' with
        | .ok l' => l'.eat_expecting '='
        | r => r
    | _ => .ok ((l.push_token .eq none).eat)
  else if l.char = some '%' then
    match l.peek with
    | some '=' =>
        match (l.push_token .percentEq none).eat_expecting '%' with
        | .ok l' => l'.eat_expecting '='
        | r => r
    | _ => .ok ((l.push_token .percent none).eat)
  else if l.char = some '+' then
    match l.peek with
    | some '=' =>
        match (l.push_token .plusEq none).eat_expecting '+' with
        | .ok l' => l'.eat_expecting '='
        | r => r
    | _ => .ok ((l.push_token .plus none).eat)
  else if l.char = some '*' then
    match l.peek with
    | some '*' =>
        match (l.push_token .starStar none).eat_expecting '*' with
        | .ok l' => l'.eat_expecting '*'
        | r => r
    | some '=' =>
        match (l.push_token .starEq none).eat_expecting '*' with
        | .ok l' => l'.eat_expecting '='
        | r => r
    | _ => .ok ((l.push_token .star none).eat)
  else if l.char = some '/' then
    match l.peek with
    | some '/' =>
        match (l.push_token .slashSlash none).eat_expecting '/' with
        | .ok l' => l'.eat_expecting '/'
        | r => r
    | some '=' =>
        match (l.push_token .slashEq none).eat_expecting '/' with
        | .ok l' => l'.eat_expecting '='
        | r => r
    | _ => .ok ((l.push_token .slash none).eat)
  else if l.char = some '-' then
    match l.peek with
    | some '=' =>
        (l.push_token .minusEq none).eat_expecting '='
    | some '>' =>
        ((l.push_token .arrow none).eat).eat_expecting '>'
    | _ => .ok ((l.push_token .minus none).eat)
  else if l.char = some '>' then
    match l.peek with
    | some '=' =>
        match (l.push_token .gtEq none).eat_expecting '>' with
        | .ok l' => l'.eat_expecting '='
        | r => r
    | _ => .ok ((l.push_token .gt none).eat)
  else if l.char = some '<' then
    match l.peek with
    | some '=' =>
        match (l.push_token .ltEq none).eat_expecting '<' with
        | .ok l' => l'.eat_expecting '='
        | r => r
    | _ => .ok ((l.push_token .lt none).eat)
  else if l.char = some ':' then
    match l.peek with
    | some '=' =>
        match (l.push_token .colonEq none).eat_expecting ':' with
        | .ok l' => l'.eat_expecting '='
        | r => r
    | _ => .ok ((l.push_token .colon none).eat)
  else if l.char = some '!' then
    match l.peek with
    | some '=' =>
        match (l.push_token .bangEq none).eat_expecting '!' with
        | .ok l' => l'.eat_expecting '='
        | r => r
    | _ => .fault l.syntax_error_on_char
  else if l.char = some '|' then .ok ((l.push_token .pipe none).eat)
  else if l.char = some lbraceChar then .ok ((l.push_token .lbrace none).eat)
  else if l.char = some rbraceChar then .ok ((l.push_token .rbrace none).eat)
  else if l.char = some '[' then .ok ((l.push_token .lbracket none).eat)
  else if l.char = some ']' then .ok ((l.push_token .rbracket none).eat)
  else if l.char = some '(' then .ok ((l.push_token .lparen none).eat)
  else if l.char = some ')' then .ok ((l.push_token .rparen none).eat)
  else if l.char = some '.' then .ok ((l.push_token .dot none).eat)
  else if l.char = some ',' then .ok ((l.push_token .comma none).eat)
  else if l.char = some squoteChar then
    Lexer.lex_string fuel squoteChar l
  else if l.char = some dquoteChar then
    Lexer.lex_string fuel dquoteChar l
  else if pyStrIsAlpha l.char || pyStrIsNumeric l.char || l.char == some '_' then
    Lexer.lex_name_or_keyword fuel l
  else if pyStrIsNumeric l.char then
    Lexer.lex_number fuel l
  else if l.char = some '#' then
    Lexer.lex_comment fuel l
  else
    .fault l.syntax_error_on_char

/-- One iteration of the `while` loop of `Lexer.lex`: snapshot the token
start (`self.line_start = self.line; self.col_start = self.col`), then
dispatch on the current character. -/
def Lexer.lex_step (fuel : Nat) (l0 : Lexer) : LexRes Lexer :=
  Lexer.lex_dispatch fuel { l0 with line_start := l0.line, col_start := l0.col }

/-- The `while self.pos < len(self.src)` driver loop of `Lexer.lex`. -/
def Lexer.lex_loop : Nat → Lexer → LexRes (List Token)
  | 0, l => if l.pos < l.src.length then .outOfFuel else .ok l.tokens
  | fuel + 1, l =>
    if l.pos < l.src.length then
      match Lexer.lex_step fuel l with
      | .ok l' => Lexer.lex_loop fuel l'
      | .fault e => .fault e
      | .outOfFuel => .outOfFuel
    else .ok l.tokens

/-- `Lexer(src).lex()` with a fuel bound for the loops. -/
def Lexer.lex (fuel : Nat) (src : String) : LexRes (List Token) :=
  Lexer.lex_loop fuel (Lexer.init src)

/-- `for i, char in enumerate(chars): row[start + i] = char` of
`GrowingLineBuffer.insert`. -/
def setChars : List Char → Nat → List Char → List Char
  | row, _, [] => row
  | row, i, c :: cs => setChars (row.set i c) (i + 1) cs

/-- `GrowingLineBuffer` from `src/python.py`: a sparse, growing 2-D grid. -/
structure GrowingLineBuffer where
  _data : List (List Char)
deriving DecidableEq

/-- `GrowingLineBuffer.insert`: grow the row list while `len(data) <= line`,
pad the target row with spaces while it is shorter than
`col - 1 + len(chars)`, then overwrite the cells with `chars`.
The two `while` loops are written as their closed forms (append
`line + 1 - len` empty rows; append the missing spaces). -/
def GrowingLineBuffer.insert (b : GrowingLineBuffer) (line col : Nat)
    (chars : List Char) : GrowingLineBuffer :=
  let d := b._data ++ List.replicate (line + 1 - b._data.length) ([] : List Char)
  let row := d.getD (line - 1) []
  let row := row ++ List.replicate (col - 1 + chars.length - row.length) ' '
  ⟨d.set (line - 1) (setChars row (col - 1) chars)⟩

/-- `GrowingLineBuffer.__str__`: rows joined by newline
(`'\n'.join(''.join(line))`). -/
def GrowingLineBuffer.toStr (b : GrowingLineBuffer) : String :=
  String.mk (List.intercalate ['\n'] b._data)

/-- The per-token rendered text of `tokens_to_src` (matched in the source's
order: comment, indent, literal-free, literal-carrying).  A comment token
without a literal fails the source's `assert`, hence `none`. -/
def tokenContent (t : Token) : Option (List Char) :=
  match t.kind, t.«instance» with
  | .instance_comment, some i => some ('#' :: i.toList)
  | .instance_comment, none => none
  | .instance_indent, _ => some [' ', ' ', ' ', ' ']
  | k, none => some (kindText k).toList
  | _, some i => some i.toList

/-- The rendered characters of a token (defaulting the impossible
assertion-failure case to `[]`). -/
def renderChars (t : Token) : List Char := (tokenContent t).getD []

/-- The `for token in tokens: buff.insert(...)` loop of `tokens_to_src`. -/
def renderTokens : GrowingLineBuffer → List Token → Option GrowingLineBuffer
  | b, [] => some b
  | b, t :: ts =>
    match tokenContent t with
    | some cs => renderTokens (b.insert t.line t.col cs) ts
    | none => none

/-- `tokens_to_src` from `src/python.py`. -/
def tokens_to_src (tokens : List Token) : Option String :=
  (renderTokens ⟨[]⟩ tokens).map GrowingLineBuffer.toStr

/-! ### Specification-side vocabulary

The following definitions formalize the spec's language about lines,
columns, occupancy and round-tripping, so claims can be stated; they are
compared against the source-derived functions above by the theorems. -/

/-- Split a text into its lines (the inverse of joining with `'\n'`);
`splitLines [] = [[]]`, matching the convention that a text has one more
line than it has newline characters. -/
def splitLines : List Char → List (List Char)
  | [] => [[]]
  | c :: rest =>
    if c = '\n' then [] :: splitLines rest
    else
      match splitLines rest with
      | [] => [[c]]
      | r :: rs => (c :: r) :: rs

/-- The character in 1-based (line, column) position of a line grid. -/
def cellAt (g : List (List Char)) (li co : Nat) : Option Char :=
  (g.get? (li - 1)).bind fun row => row.get? (co - 1)

/-- 1-based line number of offset `p` in a text: one more than the number of
newlines before `p`. -/
def lineOf (s : List Char) (p : Nat) : Nat := 1 + (s.take p).count '\n'

/-- 1-based column of offset `p` in a text: one more than the number of
characters after the last newline before `p`. -/
def colOf (s : List Char) (p : Nat) : Nat :=
  ((s.take p).reverse.takeWhile (fun c => c ≠ '\n')).length + 1

/-- A token "fits" a source text when the text carries exactly the token's
rendered characters at the token's recorded line, starting at its recorded
column. -/
def tokenFits (src : List Char) (t : Token) : Prop :=
  ∀ j, j < (renderChars t).length →
    cellAt (splitLines src) t.line (t.col + j) = (renderChars t).get? j

/-- Whether 1-based position (li, co) is occupied by the rendered text of
some token of the stream. -/
def occupiedBy (toks : List Token) (li co : Nat) : Bool :=
  toks.any fun t =>
    t.line == li && decide (t.col ≤ co) && decide (co < t.col + (renderChars t).length)

/-- Lexicographic order on (line, col) pairs. -/
def posLe (a b : Nat × Nat) : Prop := a.1 < b.1 ∨ (a.1 = b.1 ∧ a.2 ≤ b.2)

instance : DecidablePred fun p : (Nat × Nat) × Nat × Nat => posLe p.1 p.2 :=
  fun _ => by unfold posLe; infer_instance

/-- The recorded position of a token. -/
def tokPos (t : Token) : Nat × Nat := (t.line, t.col)

/-- The reconstruction "reproduces the original text exactly, except that
columns not occupied by any token's rendered text may hold placeholder
spaces": same line structure, equality at occupied positions, and at
unoccupied positions either the original character or a placeholder
space. -/
def reproducesModuloSpaces (src out : String) (toks : List Token) : Prop :=
  (splitLines out.toList).length = (splitLines src.toList).length ∧
  ∀ li co, 1 ≤ li → 1 ≤ co →
    (occupiedBy toks li co = true →
      cellAt (splitLines out.toList) li co = cellAt (splitLines src.toList) li co) ∧
    (occupiedBy toks li co = false →
      cellAt (splitLines out.toList) li co = cellAt (splitLines src.toList) li co ∨
      cellAt (splitLines out.toList) li co = some ' ' ∨
      cellAt (splitLines out.toList) li co = none)

/-- Specification shorthand for the token `lex_name_or_keyword` should emit
from state `l`: the maximal identifier-shaped run starting at the cursor,
classified against `KEYWORDS`. -/
def capturedRun (l : Lexer) : List Char :=
  (l.src.drop l.pos).takeWhile fun c => pyIsAlpha c || pyIsNumeric c || c == '_'

/-- Specification shorthand: the token `lex_name_or_keyword` should append. -/
def nameOrKeywordSpecToken (l : Lexer) : Token :=
  ⟨l.line_start, l.col_start,
   if KEYWORDS.contains (String.mk (capturedRun l)) then .instance_keyword
   else .instance_name,
   some (String.mk (capturedRun l))⟩

/-- The 1-based (line, col) cell of the reconstruction buffer. -/
def bufGet (b : GrowingLineBuffer) (li co : Nat) : Option Char :=
  (b._data.get? (li - 1)).bind fun row => row.get? (co - 1)

/-- The master invariant of the scanner state, maintained by every reachable
state of `Lexer.lex`:

* `coh`: `self.char` mirrors `self.src[self.pos]` (with the `EOF` sentinel
  past the end);
* `hline`/`hcol`: the live cursor coordinates are the true line/column of
  offset `pos` in the input;
* `snap_le`/`snap_pos`: the token-start snapshot lies at or before the
  cursor and is 1-based;
* `toks_le`/`mono`: emitted token positions are bounded by the snapshot and
  lexicographically non-decreasing in emission order;
* `pos1`: token coordinates are 1-based;
* `indent1`: every indent token is recorded at column 1;
* `fits`: every emitted token whose rendered text has no newline reads back
  verbatim from the input at its recorded position. -/
structure LexInv (l : Lexer) : Prop where
  coh : l.char = l.src.get? l.pos
  hline : l.line = lineOf l.src l.pos
  hcol : l.col = colOf l.src l.pos
  snap_le : posLe (l.line_start, l.col_start) (l.line, l.col)
  snap_pos : 1 ≤ l.line_start ∧ 1 ≤ l.col_start
  toks_le : ∀ t ∈ l.tokens, posLe (tokPos t) (l.line_start, l.col_start)
  mono : l.tokens.Pairwise fun a b => posLe (tokPos a) (tokPos b)
  pos1 : ∀ t ∈ l.tokens, 1 ≤ t.line ∧ 1 ≤ t.col
  indent1 : ∀ t ∈ l.tokens, t.kind = .instance_indent → t.col = 1
  fits : ∀ t ∈ l.tokens, '\n' ∉ renderChars t → tokenFits l.src t

/-! ### Basic state lemmas -/

theorem Lexer.eat_src (l : Lexer) : (Lexer.eat l).src = l.src := by
  unfold Lexer.eat; split <;> rfl

theorem Lexer.eat_pos (l : Lexer) : (Lexer.eat l).pos = l.pos + 1 := by
  unfold Lexer.eat; split <;> rfl

theorem Lexer.eat_char (l : Lexer) :
    (Lexer.eat l).char = l.src.get? (l.pos + 1) := by
  unfold Lexer.eat; split <;> rfl

theorem Lexer.eat_tokens (l : Lexer) : (Lexer.eat l).tokens = l.tokens := by
  unfold Lexer.eat; split <;> rfl

theorem Lexer.eat_of_ne_newline (l : Lexer) (h : ¬ l.char = some '\n') :
    Lexer.eat l = { l with pos := l.pos + 1, col := l.col + 1,
                           char := l.src.get? (l.pos + 1) } := by
  unfold Lexer.eat
  split
  next h' => exact absurd h' h
  next => rfl

theorem Lexer.eat_of_newline (l : Lexer) (h : l.char = some '\n') :
    Lexer.eat l = { l with pos := l.pos + 1, line := l.line + 1, col := 1,
                           line_start := l.line + 1, col_start := 1,
                           char := l.src.get? (l.pos + 1) } := by
  unfold Lexer.eat
  split
  next => rfl
  next h' => exact absurd h h'

/-- Once the cursor is past the end of the input, the string-scanning loop
never terminates: the current character is the `EOF` sentinel forever, the
closing quote never recurs, and every fuel bound is exhausted. -/
theorem Lexer.lex_string_loop_stuck (fuel : Nat) (q : Char) :
    ∀ (acc : List Char) (l : Lexer), l.src.length ≤ l.pos → l.char = none →
      Lexer.lex_string_loop fuel q acc l = .outOfFuel := by
  induction fuel with
  | zero => intro acc l _ _; rfl
  | succ fuel ih =>
    intro acc l hlen hchar
    unfold Lexer.lex_string_loop
    rw [if_neg (by rw [hchar]; exact fun h => Option.noConfusion h)]
    exact ih _ _ (by rw [Lexer.eat_pos, Lexer.eat_src]; omega)
      (by rw [Lexer.eat_char]; exact List.get?_eq_none.mpr (by omega))

/-! ### C10 -/

/-- **C10.** `Lexer.lex` applied to the empty input returns the empty token
list without raising any fault (for every fuel bound), and the cursor was
initialized with the end-of-input sentinel (`char = none`) as its current
character. -/
theorem C10_lex_empty_input :
    (Lexer.init "").char = none ∧ ∀ fuel, Lexer.lex fuel "" = .ok [] := by
  refine ⟨rfl, fun fuel => ?_⟩
  cases fuel <;> rfl

/-! ### C2 -/

/-- **C2** is false of the code: at a dispatch point whose current character
is a digit, the scanner does *not* delegate to the number sub-scanner.  The
identifier guard (`isalpha or isnumeric or '_'`) precedes the digit guard
and also matches digits, so digits are routed to `lex_name_or_keyword` and
the `lex_number` dispatch arm is unreachable.  On `"1.5"` the scan emits
`name("1")`, `.`, `name("5")` instead of the claimed single `number("1.5")`
token. -/
theorem C2_digit_dispatch_goes_to_name :
    Lexer.lex 30 "1.5" = .ok
      [⟨1, 1, .instance_name, some "1"⟩,
       ⟨1, 2, .dot, none⟩,
       ⟨1, 3, .instance_name, some "5"⟩] := by
  rfl

/-! ### C3 -/

/-- **C3** is false of the code: on `'-'` followed by `'='` the scanner
pushes the `-=` token but then calls `eat_expecting('=')` while the current
character is still `'-'`, so the internal assertion fails and the scan
aborts instead of consuming both characters and continuing.  (Every sibling
compound-operator arm first confirms the leading character; the `-=` arm
skips that step.) -/
theorem C3_minus_eq_assertion_fault :
    Lexer.lex 30 "-=" = .fault (.assertionFailed (some '-') '=' 1 1) := by
  rfl

/-! ### C4 -/

/-- **C4** is false of the code: when end-of-input is reached while scanning
a string literal, the scan does not abort with an unterminated-string fault
— it fails to terminate.  The string loop compares the `EOF` sentinel with
the quote character, never matches, and keeps advancing, so for *every*
fuel bound the scan of an unterminated string is still running (`outOfFuel`
— and never `ok` or `fault`). -/
theorem C4_unterminated_string_diverges :
    ∀ fuel, Lexer.lex fuel (String.mk [squoteChar, 'a']) = .outOfFuel := by
  intro fuel
  cases fuel with
  | zero => rfl
  | succ fuel =>
    show Lexer.lex_loop (fuel + 1) (Lexer.init (String.mk [squoteChar, 'a'])) = _
    have hstep : Lexer.lex_step fuel (Lexer.init (String.mk [squoteChar, 'a'])) =
        Lexer.lex_string fuel squoteChar (Lexer.init (String.mk [squoteChar, 'a'])) := rfl
    have hloop : ∀ f acc,
        Lexer.lex_string_loop f squoteChar acc
          ((Lexer.init (String.mk [squoteChar, 'a'])).eat) = .outOfFuel := by
      intro f acc
      cases f with
      | zero => rfl
      | succ f =>
        unfold Lexer.lex_string_loop
        rw [if_neg (by decide)]
        exact Lexer.lex_string_loop_stuck f squoteChar _ _ (by decide) (by decide)
    show (match Lexer.lex_step fuel (Lexer.init (String.mk [squoteChar, 'a'])) with
      | .ok l' => Lexer.lex_loop fuel l'
      | .fault e => .fault e
      | .outOfFuel => .outOfFuel) = .outOfFuel
    rw [hstep]
    unfold Lexer.lex_string
    rw [hloop]

/-! ### C5 counterexample -/

/-- **C5** as stated is false of the code: a *first* line beginning with 3
leading spaces does not trigger the malformed-indentation fault.  The
indentation sub-scanner only runs after a newline is consumed, so leading
spaces of the very first line are skipped as ordinary inter-token
whitespace and the scan succeeds. -/
theorem C5_counterexample_first_line :
    Lexer.lex 30 "   x" = .ok [⟨1, 4, .instance_name, some "x"⟩] := by
  rfl

/-! ### C6 counterexample -/

/-- **C6** as stated is false of the code: on a line with 8 leading spaces
both emitted indent tokens carry column 1 — the second (i = 2) carries
column 1, not `4*(2-1)+1 = 5`.  The token-start column snapshot is reset to
1 when the newline is consumed and is not advanced while the spaces are
counted, so every indent token of a line is recorded at the line's first
column. -/
theorem C6_counterexample_second_indent_column :
    Lexer.lex 40 "a\n        b" = .ok
      [⟨1, 1, .instance_name, some "a"⟩,
       ⟨2, 1, .instance_indent, none⟩,
       ⟨2, 1, .instance_indent, none⟩,
       ⟨2, 9, .instance_name, some "b"⟩] ∧ (1 : Nat) ≠ 4 * (2 - 1) + 1 := by
  exact ⟨rfl, by decide⟩

/-! ### C7 -/

/-- **C7** is false of the code: scanning the reconstructed text does not
always reproduce the token sequence.  For `"a\n        "` (a trailing line
of 8 spaces) the scan emits two indent tokens, but both are recorded at
column 1, so the reconstruction renders only 4 leading spaces; re-scanning
the reconstruction therefore yields a single indent token, and the
kind/literal sequences differ.  (The root cause is the indent-column slip
of C6; the spec's idempotent-re-scan property is the stated intent.) -/
theorem C7_rescan_not_idempotent :
    Lexer.lex 40 "a\n        " = .ok
      [⟨1, 1, .instance_name, some "a"⟩,
       ⟨2, 1, .instance_indent, none⟩,
       ⟨2, 1, .instance_indent, none⟩] ∧
    tokens_to_src
      [⟨1, 1, .instance_name, some "a"⟩,
       ⟨2, 1, .instance_indent, none⟩,
       ⟨2, 1, .instance_indent, none⟩] = some "a\n    \n" ∧
    Lexer.lex 40 "a\n    \n" = .ok
      [⟨1, 1, .instance_name, some "a"⟩,
       ⟨2, 1, .instance_indent, none⟩] ∧
    ([(⟨1, 1, .instance_name, some "a"⟩ : Token),
      ⟨2, 1, .instance_indent, none⟩].map (fun t => (t.kind, t.«instance»)) ≠
     [(⟨1, 1, .instance_name, some "a"⟩ : Token),
      ⟨2, 1, .instance_indent, none⟩,
      ⟨2, 1, .instance_indent, none⟩].map (fun t => (t.kind, t.«instance»))) := by
  exact ⟨rfl, by decide, rfl, by decide⟩

/-! ### C1 counterexample -/

/-- **C1** as stated is false of the code: for the supported-subset input
`"a"` (no tabs, no indentation, no strings) the scan succeeds with one
token, but the reconstruction is `"a\n"` — the buffer-growing loop
(`while len(self._data) <= line`) always creates one row beyond the last
token's line, so the reconstruction gains a whole trailing empty line,
a deviation that is not a placeholder space in an unoccupied column. -/
theorem C1_counterexample_trailing_line :
    Lexer.lex 10 "a" = .ok [⟨1, 1, .instance_name, some "a"⟩] ∧
    tokens_to_src [⟨1, 1, .instance_name, some "a"⟩] = some "a\n" ∧
    ¬ reproducesModuloSpaces "a" "a\n" [⟨1, 1, .instance_name, some "a"⟩] := by
  refine ⟨rfl, by decide, fun h => absurd h.1 (by decide)⟩

/-! ### Sub-scanner characterizations -/

theorem someBeqSome (a b : Char) : (some a == some b) = (a == b) := rfl

/-- The current character is the head of the rest of the input (under the
cursor coherence `l.char = l.src.get? l.pos`). -/
theorem char_eq_head_drop (l : Lexer) (h : l.char = l.src.get? l.pos) :
    l.char = (l.src.drop l.pos).head? := by
  rw [h, ← List.get?_zero, List.get?_drop, Nat.add_zero]

/-- Running the space-counting loop over exactly `k` leading spaces: the
count comes back as `n + k` and the cursor state keeps its tokens, its
token-start snapshot and its line. -/
theorem Lexer.lex_indentation_loop_run :
    ∀ k fuel n (l : Lexer) rest,
      l.src.drop l.pos = List.replicate k ' ' ++ rest →
      rest.head? ≠ some ' ' →
      l.char = l.src.get? l.pos →
      k < fuel →
      ∃ l', Lexer.lex_indentation_loop fuel n l = .ok (n + k, l') ∧
        l'.tokens = l.tokens ∧ l'.line_start = l.line_start ∧
        l'.col_start = l.col_start ∧ l'.line = l.line ∧ l'.src = l.src := by
  intro k
  induction k with
  | zero =>
    intro fuel n l rest hdrop hrest hcoh hfuel
    obtain ⟨fuel, rfl⟩ : ∃ f, fuel = f + 1 := ⟨fuel - 1, by omega⟩
    have hchar : l.char ≠ some ' ' := by
      rw [char_eq_head_drop l hcoh, hdrop]; simpa using hrest
    refine ⟨l, ?_, rfl, rfl, rfl, rfl, rfl⟩
    unfold Lexer.lex_indentation_loop
    rw [if_neg hchar]
    simp
  | succ k ih =>
    intro fuel n l rest hdrop hrest hcoh hfuel
    obtain ⟨fuel, rfl⟩ : ∃ f, fuel = f + 1 := ⟨fuel - 1, by omega⟩
    have hchar : l.char = some ' ' := by
      rw [char_eq_head_drop l hcoh, hdrop, List.replicate_succ]; rfl
    have hdrop' : l.src.drop (l.pos + 1) = List.replicate k ' ' ++ rest := by
      rw [← List.tail_drop, hdrop, List.replicate_succ]; rfl
    have heat := Lexer.eat_of_ne_newline l (by rw [hchar]; decide)
    obtain ⟨l', hl', h1, h2, h3, h4, h5⟩ :=
      ih fuel (n + 1) l.eat rest (by rw [Lexer.eat_src, Lexer.eat_pos, hdrop'])
        hrest (by rw [Lexer.eat_char, Lexer.eat_src, Lexer.eat_pos]) (by omega)
    refine ⟨l', ?_, ?_, ?_, ?_, ?_, ?_⟩
    · unfold Lexer.lex_indentation_loop
      rw [if_pos hchar, hl']
      congr 2
      omega
    · rw [h1, heat]
    · rw [h2, heat]
    · rw [h3, heat]
    · rw [h4, heat]
    · rw [h5, heat]

/-- `pushIndents n` appends `n` indent tokens at the current token-start
snapshot. -/
theorem Lexer.pushIndents_spec : ∀ n (l : Lexer),
    Lexer.pushIndents n l =
      { l with tokens := l.tokens ++
          List.replicate n ⟨l.line_start, l.col_start, .instance_indent, none⟩ } := by
  intro n
  induction n with
  | zero => intro l; simp [Lexer.pushIndents]
  | succ n ih =>
    intro l
    show Lexer.pushIndents n (l.push_token .instance_indent none) = _
    rw [ih]
    simp only [Lexer.push_token, List.replicate_succ]
    congr 1
    simp

/-! ### C5 (amended) -/

/-- **C5 (amended).**  For a line that begins immediately after a newline
consumed by the scanner (the only situation in which the indentation
sub-scanner runs; the first line's leading spaces are skipped as ordinary
whitespace, see the counterexample), a run of `k` leading spaces raises the
malformed-indentation fault when `k` is not a multiple of 4 — so 3, 5, 6, 7
spaces fault — and otherwise emits exactly `k / 4` indent tokens — so 0, 4,
8 spaces emit 0, 1, 2 of them. -/
theorem C5_indentation_multiple_of_four (fuel : Nat) (l : Lexer) (k : Nat)
    (rest : List Char)
    (hdrop : l.src.drop l.pos = List.replicate k ' ' ++ rest)
    (hrest : rest.head? ≠ some ' ')
    (hcoh : l.char = l.src.get? l.pos)
    (hfuel : k < fuel) :
    (k % 4 ≠ 0 → Lexer.lex_indentation fuel l = .fault (.unexpectedIndent l.line)) ∧
    (k % 4 = 0 → ∃ l', Lexer.lex_indentation fuel l = .ok l' ∧
      l'.tokens = l.tokens ++ List.replicate (k / 4)
        ⟨l.line_start, l.col_start, .instance_indent, none⟩) := by
  obtain ⟨l', hl', htok, hls, hcs, hline, _⟩ :=
    Lexer.lex_indentation_loop_run k fuel 0 l rest hdrop hrest hcoh hfuel
  constructor
  · intro hk
    unfold Lexer.lex_indentation
    rw [hl']
    simp only [Nat.zero_add]
    rw [if_pos hk, hline]
  · intro hk
    refine ⟨Lexer.pushIndents (k / 4) l', ?_, ?_⟩
    · unfold Lexer.lex_indentation
      rw [hl']
      simp only [Nat.zero_add]
      rw [if_neg (by omega)]
    · rw [Lexer.pushIndents_spec, htok, hls, hcs]

/-- Witness for C5 (amended): three leading spaces after a newline fault
(here exercised directly on the indentation sub-scanner at a line start). -/
theorem C5_witness :
    Lexer.lex_indentation 10 (Lexer.init "   x") = .fault (.unexpectedIndent 1) := by
  exact (C5_indentation_multiple_of_four 10 (Lexer.init "   x") 3 ['x']
    (by decide) (by decide) rfl (by decide)).1 (by decide)

/-- The identifier-run loop captures exactly the maximal run of
alphabetic/numeric/underscore characters from the cursor, leaving the
token list and the token-start snapshot untouched. -/
theorem Lexer.lex_name_loop_run :
    ∀ fuel acc (l : Lexer) cs l',
      l.char = l.src.get? l.pos →
      Lexer.lex_name_loop fuel acc l = .ok (cs, l') →
      cs = acc ++ (l.src.drop l.pos).takeWhile
          (fun c => pyIsAlpha c || pyIsNumeric c || c == '_') ∧
      l'.tokens = l.tokens ∧ l'.line_start = l.line_start ∧
      l'.col_start = l.col_start := by
  intro fuel
  induction fuel with
  | zero => intro acc l cs l' _ h; exact LexRes.noConfusion h
  | succ fuel ih =>
    intro acc l cs l' hcoh h
    unfold Lexer.lex_name_loop at h
    by_cases hlt : l.pos < l.src.length
    · rw [if_pos hlt] at h
      have hget : l.src.get? l.pos = some (l.src.get ⟨l.pos, hlt⟩) :=
        List.get?_eq_get hlt
      set c := l.src.get ⟨l.pos, hlt⟩ with hc
      have hchar : l.char = some c := by rw [hcoh, hget]
      have hdropc : l.src.drop l.pos = c :: l.src.drop (l.pos + 1) :=
        List.drop_eq_get_cons hlt
      have hguard : (pyStrIsAlpha l.char || pyStrIsNumeric l.char ||
          l.char == some '_') = (pyIsAlpha c || pyIsNumeric c || c == '_') := by
        rw [hchar]; rfl
      rw [hguard] at h
      by_cases hcond : (pyIsAlpha c || pyIsNumeric c || c == '_') = true
      · rw [if_pos hcond] at h
        have hcl : charChars l.char = [c] := by rw [hchar]; rfl
        rw [hcl] at h
        have hcoh' : l.eat.char = l.eat.src.get? l.eat.pos := by
          rw [Lexer.eat_char, Lexer.eat_src, Lexer.eat_pos]
        obtain ⟨h1, h2, h3, h4⟩ := ih (acc ++ [c]) l.eat cs l' hcoh' h
        have hnn : ¬ l.char = some '\n' := by
          rw [hchar]
          intro hx
          have hcnl : c = '\n' := by injection hx
          rw [hcnl] at hcond
          exact absurd hcond (by decide)
        have heat := Lexer.eat_of_ne_newline l hnn
        rw [Lexer.eat_src, Lexer.eat_pos] at h1
        have hTW : List.takeWhile (fun c => pyIsAlpha c || pyIsNumeric c || c == '_')
            (c :: List.drop (l.pos + 1) l.src) =
            c :: List.takeWhile (fun c => pyIsAlpha c || pyIsNumeric c || c == '_')
              (List.drop (l.pos + 1) l.src) :=
          List.takeWhile_cons_of_pos (by exact hcond)
        refine ⟨?_, ?_, ?_, ?_⟩
        · rw [h1, hdropc, hTW]
          simp
        · rw [h2, Lexer.eat_tokens]
        · rw [h3, heat]
        · rw [h4, heat]
      · rw [if_neg hcond] at h
        obtain ⟨h5, h6⟩ : acc = cs ∧ l = l' := by
          have := h
          rw [LexRes.ok.injEq, Prod.mk.injEq] at this
          exact this
        subst h5; subst h6
        have hTW : List.takeWhile (fun c => pyIsAlpha c || pyIsNumeric c || c == '_')
            (c :: List.drop (l.pos + 1) l.src) = [] :=
          List.takeWhile_cons_of_neg (by exact hcond)
        rw [hdropc, hTW]
        exact ⟨by simp, rfl, rfl, rfl⟩
    · rw [if_neg hlt] at h
      obtain ⟨h5, h6⟩ : acc = cs ∧ l = l' := by
        have := h
        rw [LexRes.ok.injEq, Prod.mk.injEq] at this
        exact this
      subst h5; subst h6
      rw [List.drop_eq_nil_of_le (by omega)]
      exact ⟨by simp, rfl, rfl, rfl⟩

/-! ### C9 -/

/-- **C9.**  Whenever the name/keyword sub-scanner succeeds, the single token
it appends carries kind `instance_keyword` exactly when its captured text is
(case-sensitively) a member of `KEYWORDS` and `instance_name` otherwise; in
both cases the literal is the captured maximal run, every character of which
is alphabetic, numeric, or an underscore. -/
theorem C9_name_or_keyword_classification (fuel : Nat) (l l' : Lexer)
    (hcoh : l.char = l.src.get? l.pos)
    (h : Lexer.lex_name_or_keyword fuel l = .ok l') :
    l'.tokens = l.tokens ++ [nameOrKeywordSpecToken l] ∧
    ∀ c ∈ capturedRun l, (pyIsAlpha c || pyIsNumeric c || c == '_') = true := by
  refine ⟨?_, ?_⟩
  swap
  · intro c hc
    unfold capturedRun at hc
    exact @List.mem_takeWhile_imp _
      (fun c => pyIsAlpha c || pyIsNumeric c || c == '_')
      (List.drop l.pos l.src) c hc
  rcases hr : Lexer.lex_name_loop fuel [] l with p | e | u
  · obtain ⟨cs, l₂⟩ := p
    have hval : Lexer.lex_name_or_keyword fuel l = .ok (l₂.push_token
        (if KEYWORDS.contains (String.mk cs) then .instance_keyword
         else .instance_name) (some (String.mk cs))) := by
      unfold Lexer.lex_name_or_keyword
      rw [hr]
    rw [hval, LexRes.ok.injEq] at h
    obtain ⟨h1, h2, h3, h4⟩ := Lexer.lex_name_loop_run fuel [] l cs l₂ hcoh hr
    rw [List.nil_append] at h1
    subst h
    rw [Lexer.push_token, h2, h3, h4]
    unfold nameOrKeywordSpecToken capturedRun
    rw [← h1]
  · exact absurd h (by
      have : Lexer.lex_name_or_keyword fuel l = .fault e := by
        unfold Lexer.lex_name_or_keyword; rw [hr]
      rw [this]
      exact fun hx => LexRes.noConfusion hx)
  · exact absurd h (by
      have : Lexer.lex_name_or_keyword fuel l = .outOfFuel := by
        unfold Lexer.lex_name_or_keyword; rw [hr]
      rw [this]
      exact fun hx => LexRes.noConfusion hx)

/-- Witness for C9: scanning the keyword `if` appends the keyword-classified
token predicted by `nameOrKeywordSpecToken`. -/
theorem C9_witness :
    [(⟨1, 1, .instance_keyword, some "if"⟩ : Token)] =
      (Lexer.init "if").tokens ++ [nameOrKeywordSpecToken (Lexer.init "if")] := by
  exact (C9_name_or_keyword_classification 10 (Lexer.init "if")
    ⟨"if".toList, 2, 1, 3, 1, 1, none, [⟨1, 1, .instance_keyword, some "if"⟩]⟩
    rfl (by decide)).1

/-! ### Line/column coordinate lemmas -/

theorem lineOf_ge_one (s : List Char) (p : Nat) : 1 ≤ lineOf s p := by
  unfold lineOf; omega

theorem colOf_ge_one (s : List Char) (p : Nat) : 1 ≤ colOf s p := by
  unfold colOf; omega

theorem lineOf_zero (s : List Char) : lineOf s 0 = 1 := by
  unfold lineOf; simp

theorem colOf_zero (s : List Char) : colOf s 0 = 1 := by
  unfold colOf; simp

theorem lineOf_succ_of_ne (s : List Char) (p : Nat) (c : Char)
    (h : s.get? p = some c) (hc : c ≠ '\n') : lineOf s (p + 1) = lineOf s p := by
  unfold lineOf
  rw [List.take_succ, ← List.get?_eq_getElem?, h]
  have hz : List.count '\n' [c] = 0 := by
    simp [List.count_cons, Ne.symm hc]
  simp [List.count_append, hz]

theorem lineOf_succ_of_eq (s : List Char) (p : Nat)
    (h : s.get? p = some '\n') : lineOf s (p + 1) = lineOf s p + 1 := by
  unfold lineOf
  rw [List.take_succ, ← List.get?_eq_getElem?, h]
  simp [List.count_append]
  omega

theorem colOf_succ_of_ne (s : List Char) (p : Nat) (c : Char)
    (h : s.get? p = some c) (hc : c ≠ '\n') : colOf s (p + 1) = colOf s p + 1 := by
  unfold colOf
  rw [List.take_succ, ← List.get?_eq_getElem?, h]
  simp only [Option.toList_some, List.reverse_append, List.reverse_singleton,
    List.singleton_append]
  rw [List.takeWhile_cons_of_pos (by simpa using hc)]
  simp

theorem colOf_succ_of_eq (s : List Char) (p : Nat)
    (h : s.get? p = some '\n') : colOf s (p + 1) = 1 := by
  unfold colOf
  rw [List.take_succ, ← List.get?_eq_getElem?, h]
  simp only [Option.toList_some, List.reverse_append, List.reverse_singleton,
    List.singleton_append]
  rw [List.takeWhile_cons_of_neg (by simp)]
  simp

theorem lt_of_get?_eq_some {α : Type} {l : List α} {n : Nat} {a : α}
    (h : l.get? n = some a) : n < l.length := by
  by_contra hh
  rw [List.get?_eq_none.mpr (by omega)] at h
  cases h

/-- `takeWhile` over an append whose left part wholly satisfies the
predicate. -/
theorem takeWhile_append_all {α : Type} (p : α → Bool) :
    ∀ (a b : List α), (∀ x ∈ a, p x = true) →
      List.takeWhile p (a ++ b) = a ++ List.takeWhile p b := by
  intro a
  induction a with
  | nil => intro b _; rfl
  | cons x xs ih =>
    intro b h
    rw [List.cons_append, List.takeWhile_cons_of_pos (h x (by simp)),
      ih b (fun y hy => h y (by simp [hy])), List.cons_append]

/-- `takeWhile` over an append whose left part contains a failing element. -/
theorem takeWhile_append_stop {α : Type} (p : α → Bool) :
    ∀ (a b : List α), ¬ (∀ x ∈ a, p x = true) →
      List.takeWhile p (a ++ b) = List.takeWhile p a := by
  intro a
  induction a with
  | nil => intro b h; exact absurd (by simp) h
  | cons x xs ih =>
    intro b h
    by_cases hx : p x = true
    · rw [List.cons_append, List.takeWhile_cons_of_pos hx,
        List.takeWhile_cons_of_pos hx,
        ih b (fun hall => h (by intro y hy; rcases List.mem_cons.mp hy with rfl | hy
                                · exact hx
                                · exact hall y hy))]
    · rw [List.cons_append, List.takeWhile_cons_of_neg hx,
        List.takeWhile_cons_of_neg hx]

/-- A prefix index of a `takeWhile` reads through to the underlying list. -/
theorem takeWhile_get? {α : Type} (p : α → Bool) :
    ∀ (l : List α) (j : Nat), j < (List.takeWhile p l).length →
      (List.takeWhile p l).get? j = l.get? j := by
  intro l
  induction l with
  | nil => intro j h; simp at h
  | cons x xs ih =>
    intro j h
    by_cases hx : p x = true
    · rw [List.takeWhile_cons_of_pos hx] at h ⊢
      cases j with
      | zero => rfl
      | succ j =>
        show (List.takeWhile p xs).get? j = xs.get? j
        exact ih j (by simpa using h)
    · rw [List.takeWhile_cons_of_neg hx] at h
      simp at h

theorem splitLines_ne_nil : ∀ s : List Char, splitLines s ≠ [] := by
  intro s
  cases s with
  | nil => simp [splitLines]
  | cons c rest =>
    unfold splitLines
    by_cases hc : c = '\n'
    · rw [if_pos hc]; simp
    · rw [if_neg hc]
      cases splitLines rest <;> simp

theorem splitLines_cons_nl (rest : List Char) :
    splitLines ('\n' :: rest) = [] :: splitLines rest := by
  rfl

theorem splitLines_cons_ne (c : Char) (rest : List Char) (h : c ≠ '\n') :
    splitLines (c :: rest) =
      match splitLines rest with
      | [] => [[c]]
      | r :: rs => (c :: r) :: rs := by
  conv_lhs => rw [splitLines]
  rw [if_neg h]

/-- A list wholly satisfying a predicate is its own `takeWhile`. -/
theorem takeWhile_eq_self_of_all {α : Type} (p : α → Bool) (a : List α)
    (h : ∀ x ∈ a, p x = true) : List.takeWhile p a = a := by
  have := takeWhile_append_all p a [] h
  simpa using this

/-- Appending a trailing newline never changes the run of non-newline
characters taken from the front. -/
theorem takeWhile_append_nl (a : List Char) :
    List.takeWhile (fun c => decide (c ≠ '\n')) (a ++ ['\n']) =
    List.takeWhile (fun c => decide (c ≠ '\n')) a := by
  by_cases hall : ∀ x ∈ a, (fun c : Char => decide (c ≠ '\n')) x = true
  · rw [takeWhile_append_all _ _ _ hall, takeWhile_eq_self_of_all _ _ hall]
    simp
  · exact takeWhile_append_stop _ _ _ hall

/-- The grid/coordinate correspondence: the character at offset `p` of a
text (when it is not a newline) is the cell at `(lineOf, colOf)` of the
split-into-lines grid. -/
theorem cellAt_splitLines : ∀ (s : List Char) (p : Nat) (c : Char),
    s.get? p = some c → c ≠ '\n' →
    cellAt (splitLines s) (lineOf s p) (colOf s p) = some c := by
  intro s
  induction s with
  | nil => intro p c h _; cases p <;> cases h
  | cons c₀ rest ih =>
    intro p c h hc
    obtain ⟨r, rs, hsp⟩ : ∃ r rs, splitLines rest = r :: rs := by
      cases hx : splitLines rest with
      | nil => exact absurd hx (splitLines_ne_nil rest)
      | cons r rs => exact ⟨r, rs, rfl⟩
    cases p with
    | zero =>
      have hcc : c₀ = c := by
        have hx : some c₀ = some c := h
        injection hx
      subst hcc
      rw [lineOf_zero, colOf_zero, splitLines_cons_ne c₀ rest hc, hsp]
      rfl
    | succ p =>
      have hr : rest.get? p = some c := h
      have hIH := ih p c hr hc
      by_cases hnl : c₀ = '\n'
      · subst hnl
        have hline : lineOf ('\n' :: rest) (p + 1) = lineOf rest p + 1 := by
          unfold lineOf
          rw [List.take_succ_cons]
          simp [List.count_cons]
          omega
        have hcol : colOf ('\n' :: rest) (p + 1) = colOf rest p := by
          unfold colOf
          rw [List.take_succ_cons]
          simp only [List.reverse_cons]
          rw [takeWhile_append_nl]
        rw [hline, hcol, splitLines_cons_nl]
        unfold cellAt at hIH ⊢
        obtain ⟨m, hm⟩ : ∃ m, lineOf rest p = m + 1 :=
          ⟨lineOf rest p - 1, by have := lineOf_ge_one rest p; omega⟩
        rw [hm] at hIH ⊢
        simpa using hIH
      · have hline : lineOf (c₀ :: rest) (p + 1) = lineOf rest p := by
          unfold lineOf
          rw [List.take_succ_cons]
          simp [List.count_cons, hnl]
        by_cases hmem : '\n' ∈ rest.take p
        · have hcol : colOf (c₀ :: rest) (p + 1) = colOf rest p := by
            unfold colOf
            rw [List.take_succ_cons]
            simp only [List.reverse_cons]
            rw [takeWhile_append_stop _ _ _ (by
              intro hall
              have hx := hall '\n' (by simpa using hmem)
              simp at hx)]
          have hline2 : 2 ≤ lineOf rest p := by
            unfold lineOf
            have := List.count_pos_iff_mem.mpr hmem
            omega
          rw [hline, hcol, splitLines_cons_ne c₀ rest hnl, hsp]
          rw [hsp] at hIH
          unfold cellAt at hIH ⊢
          obtain ⟨m, hm⟩ : ∃ m, lineOf rest p = m + 2 :=
            ⟨lineOf rest p - 2, by omega⟩
          rw [hm] at hIH ⊢
          simpa using hIH
        · have hall : ∀ x ∈ (rest.take p).reverse,
              (fun c : Char => decide ¬(c = '\n')) x = true := by
            intro x hx
            simp only [decide_eq_true_iff]
            intro hxx
            subst hxx
            exact hmem (by simpa using hx)
          have hcol : colOf (c₀ :: rest) (p + 1) = colOf rest p + 1 := by
            unfold colOf
            rw [List.take_succ_cons]
            simp only [List.reverse_cons]
            rw [takeWhile_append_all _ _ _ hall,
              List.takeWhile_cons_of_pos (by simpa using hnl),
              takeWhile_eq_self_of_all _ _ hall]
            simp
          have hl1 : lineOf rest p = 1 := by
            unfold lineOf
            rw [List.count_eq_zero.mpr hmem]
          rw [hline, hcol, hl1, splitLines_cons_ne c₀ rest hnl, hsp]
          rw [hsp, hl1] at hIH
          unfold cellAt at hIH ⊢
          obtain ⟨m, hm⟩ : ∃ m, colOf rest p = m + 1 :=
            ⟨colOf rest p - 1, by have := colOf_ge_one rest p; omega⟩
          rw [hm] at hIH ⊢
          simpa using hIH

/-- A token whose rendered text is the verbatim slice of the input starting
at offset `p` — with the token recorded at the line/column of `p` and no
newline in the render — fits the input grid. -/
theorem tokenFits_of_slice (src : List Char) (p : Nat) (t : Token)
    (hl : t.line = lineOf src p) (hc : t.col = colOf src p)
    (hsl : ∀ j, j < (renderChars t).length →
      src.get? (p + j) = (renderChars t).get? j)
    (hnl : '\n' ∉ renderChars t) : tokenFits src t := by
  have haux : ∀ j, j ≤ (renderChars t).length →
      lineOf src (p + j) = lineOf src p ∧ colOf src (p + j) = colOf src p + j := by
    intro j
    induction j with
    | zero => intro _; simp
    | succ j ihj =>
      intro hj
      obtain ⟨hL, hC⟩ := ihj (by omega)
      obtain ⟨cj, hcj⟩ : ∃ cj, (renderChars t).get? j = some cj := by
        rw [List.get?_eq_get (by omega)]; exact ⟨_, rfl⟩
      have hcjm : cj ∈ renderChars t := List.get?_mem hcj
      have hcne : cj ≠ '\n' := fun hh => hnl (hh ▸ hcjm)
      have hsrc : src.get? (p + j) = some cj := by rw [hsl j (by omega), hcj]
      constructor
      · rw [show p + (j + 1) = (p + j) + 1 by omega,
          lineOf_succ_of_ne src (p + j) cj hsrc hcne, hL]
      · rw [show p + (j + 1) = (p + j) + 1 by omega,
          colOf_succ_of_ne src (p + j) cj hsrc hcne, hC]
        omega
  intro j hj
  obtain ⟨cj, hcj⟩ : ∃ cj, (renderChars t).get? j = some cj := by
    rw [List.get?_eq_get hj]; exact ⟨_, rfl⟩
  have hcjm : cj ∈ renderChars t := List.get?_mem hcj
  have hcne : cj ≠ '\n' := fun hh => hnl (hh ▸ hcjm)
  have hsrc : src.get? (p + j) = some cj := by rw [hsl j hj, hcj]
  have hgrid := cellAt_splitLines src (p + j) cj hsrc hcne
  obtain ⟨hL, hC⟩ := haux j (by omega)
  rw [hL, hC] at hgrid
  rw [hl, hc, hcj]
  exact hgrid

/-! ### Invariant preservation -/

theorem posLe_refl (a : Nat × Nat) : posLe a a := by unfold posLe; omega

theorem posLe_trans {a b c : Nat × Nat} (h1 : posLe a b) (h2 : posLe b c) :
    posLe a c := by
  unfold posLe at h1 h2 ⊢
  omega

theorem LexInv_eat (l : Lexer) (hinv : LexInv l) (hlt : l.pos < l.src.length) :
    LexInv l.eat := by
  obtain ⟨c, hc⟩ : ∃ c, l.src.get? l.pos = some c := by
    rw [List.get?_eq_get hlt]; exact ⟨_, rfl⟩
  have hchar : l.char = some c := by rw [hinv.coh, hc]
  by_cases hnl : c = '\n'
  · subst hnl
    have he := Lexer.eat_of_newline l hchar
    refine ⟨?_, ?_, ?_, ?_, ?_, ?_, ?_, ?_, ?_, ?_⟩ <;> rw [he]
    · show l.line + 1 = lineOf l.src (l.pos + 1)
      rw [lineOf_succ_of_eq l.src l.pos hc, hinv.hline]
    · show (1 : Nat) = colOf l.src (l.pos + 1)
      rw [colOf_succ_of_eq l.src l.pos hc]
    · exact posLe_refl _
    · exact ⟨by show (1 : Nat) ≤ l.line + 1; omega, by show (1 : Nat) ≤ 1; omega⟩
    · intro t ht
      refine posLe_trans (hinv.toks_le t ht) (posLe_trans hinv.snap_le ?_)
      show posLe (l.line, l.col) (l.line + 1, 1)
      unfold posLe; omega
    · exact hinv.mono
    · exact hinv.pos1
    · exact hinv.indent1
    · exact hinv.fits
  · have he := Lexer.eat_of_ne_newline l (by rw [hchar]; simp [hnl])
    refine ⟨?_, ?_, ?_, ?_, ?_, ?_, ?_, ?_, ?_, ?_⟩ <;> rw [he]
    · show l.line = lineOf l.src (l.pos + 1)
      rw [lineOf_succ_of_ne l.src l.pos c hc hnl, hinv.hline]
    · show l.col + 1 = colOf l.src (l.pos + 1)
      rw [colOf_succ_of_ne l.src l.pos c hc hnl, hinv.hcol]
    · refine posLe_trans hinv.snap_le ?_
      show posLe (l.line, l.col) (l.line, l.col + 1)
      unfold posLe; omega
    · exact hinv.snap_pos
    · exact hinv.toks_le
    · exact hinv.mono
    · exact hinv.pos1
    · exact hinv.indent1
    · exact hinv.fits

theorem LexInv_push (l : Lexer) (kind : TokenKind) (inst : Option String)
    (hinv : LexInv l)
    (hind : kind = .instance_indent → l.col_start = 1)
    (hfit : '\n' ∉ renderChars ⟨l.line_start, l.col_start, kind, inst⟩ →
      tokenFits l.src ⟨l.line_start, l.col_start, kind, inst⟩) :
    LexInv (l.push_token kind inst) := by
  refine ⟨hinv.coh, hinv.hline, hinv.hcol, hinv.snap_le, hinv.snap_pos,
    ?_, ?_, ?_, ?_, ?_⟩
  · intro t ht
    rcases List.mem_append.mp ht with ht | ht
    · exact hinv.toks_le t ht
    · rcases List.mem_singleton.mp ht with rfl
      exact posLe_refl _
  · rw [Lexer.push_token]
    refine List.pairwise_append.mpr ⟨hinv.mono, by simp, ?_⟩
    intro a ha b hb
    rcases List.mem_singleton.mp hb with rfl
    exact hinv.toks_le a ha
  · intro t ht
    rcases List.mem_append.mp ht with ht | ht
    · exact hinv.pos1 t ht
    · rcases List.mem_singleton.mp ht with rfl
      exact hinv.snap_pos
  · intro t ht
    rcases List.mem_append.mp ht with ht | ht
    · exact hinv.indent1 t ht
    · rcases List.mem_singleton.mp ht with rfl
      exact hind
  · intro t ht
    rcases List.mem_append.mp ht with ht | ht
    · exact hinv.fits t ht
    · rcases List.mem_singleton.mp ht with rfl
      exact hfit

theorem LexInv_snap (l : Lexer) (hinv : LexInv l) :
    LexInv { l with line_start := l.line, col_start := l.col } := by
  refine ⟨hinv.coh, hinv.hline, hinv.hcol, posLe_refl _, ?_, ?_, hinv.mono,
    hinv.pos1, hinv.indent1, hinv.fits⟩
  · constructor
    · show 1 ≤ l.line
      rw [hinv.hline]; exact lineOf_ge_one _ _
    · show 1 ≤ l.col
      rw [hinv.hcol]; exact colOf_ge_one _ _
  · intro t ht
    exact posLe_trans (hinv.toks_le t ht) hinv.snap_le

/-- Converse characterization of the space-counting loop: a successful run
counted some `k` spaces sitting verbatim in the input at the cursor, and
preserved the invariant, the tokens and the token-start snapshot. -/
theorem Lexer.lex_indentation_loop_ok :
    ∀ fuel n (l : Lexer) m l',
      LexInv l → Lexer.lex_indentation_loop fuel n l = .ok (m, l') →
      ∃ k, m = n + k ∧ LexInv l' ∧ l'.src = l.src ∧ l'.pos = l.pos + k ∧
        l'.tokens = l.tokens ∧ l'.line_start = l.line_start ∧
        l'.col_start = l.col_start ∧
        (∀ j, j < k → l.src.get? (l.pos + j) = some ' ') := by
  intro fuel
  induction fuel with
  | zero => intro n l m l' _ h; exact LexRes.noConfusion h
  | succ fuel ih =>
    intro n l m l' hinv h
    unfold Lexer.lex_indentation_loop at h
    by_cases hsp : l.char = some ' '
    · rw [if_pos hsp] at h
      have hgs : l.src.get? l.pos = some ' ' := by rw [← hinv.coh, hsp]
      have hlt : l.pos < l.src.length := lt_of_get?_eq_some hgs
      have heat := Lexer.eat_of_ne_newline l (by rw [hsp]; decide)
      obtain ⟨k, hm, hinv', hsrc, hpos, htok, hls, hcs, hsps⟩ :=
        ih (n + 1) l.eat m l' (LexInv_eat l hinv hlt) h
      refine ⟨k + 1, by omega, hinv', ?_, ?_, ?_, ?_, ?_, ?_⟩
      · rw [hsrc, Lexer.eat_src]
      · rw [hpos, Lexer.eat_pos]; omega
      · rw [htok, Lexer.eat_tokens]
      · rw [hls, heat]
      · rw [hcs, heat]
      · intro j hj
        cases j with
        | zero => simpa using hgs
        | succ j =>
          have := hsps j (by omega)
          rw [Lexer.eat_src, Lexer.eat_pos] at this
          rw [show l.pos + (j + 1) = l.pos + 1 + j by omega]
          exact this
    · rw [if_neg hsp] at h
      obtain ⟨h1, h2⟩ : n = m ∧ l = l' := by
        have hx := h
        rw [LexRes.ok.injEq, Prod.mk.injEq] at hx
        exact hx
      subst h1; subst h2
      exact ⟨0, by omega, hinv, rfl, by omega, rfl, rfl, rfl, by omega⟩

/-- Pushing indent tokens preserves the invariant, provided the token-start
column is 1 and the four-space rendering fits the input. -/
theorem LexInv_pushIndents :
    ∀ nI (l : Lexer), LexInv l → l.col_start = 1 →
      tokenFits l.src ⟨l.line_start, l.col_start, .instance_indent, none⟩ →
      LexInv (Lexer.pushIndents nI l) := by
  intro nI
  induction nI with
  | zero => intro l hinv _ _; exact hinv
  | succ nI ih =>
    intro l hinv hcs hfit
    show LexInv (Lexer.pushIndents nI (l.push_token .instance_indent none))
    exact ih (l.push_token .instance_indent none)
      (LexInv_push l .instance_indent none hinv (fun _ => hcs) (fun _ => hfit))
      hcs hfit

/-- The indentation sub-scanner preserves the invariant when entered right
after a newline (token-start column 1, snapshot at the cursor offset). -/
theorem Lexer.lex_indentation_ok (fuel : Nat) (l l' : Lexer)
    (hinv : LexInv l)
    (hls : l.line_start = lineOf l.src l.pos)
    (hcs : l.col_start = 1) (hcs2 : l.col_start = colOf l.src l.pos)
    (h : Lexer.lex_indentation fuel l = .ok l') :
    LexInv l' ∧ l'.src = l.src := by
  unfold Lexer.lex_indentation at h
  split at h
  next m l₂ heq =>
    obtain ⟨k, hm, hinv₂, hsrc₂, _, _, hls₂, hcs₂, hsps⟩ :=
      Lexer.lex_indentation_loop_ok fuel 0 l m l₂ hinv heq
    rw [Nat.zero_add] at hm
    subst hm
    split at h
    · exact absurd h (fun hx => LexRes.noConfusion hx)
    next hk4 =>
      have hl' : Lexer.pushIndents (m / 4) l₂ = l' := by
        rw [LexRes.ok.injEq] at h
        exact h
      subst hl'
      by_cases hk0 : m / 4 = 0
      · rw [hk0]
        exact ⟨hinv₂, hsrc₂⟩
      · have hk4ge : 4 ≤ m := by omega
        have hfit : tokenFits l₂.src
            ⟨l₂.line_start, l₂.col_start, .instance_indent, none⟩ := by
          rw [hsrc₂, hls₂, hcs₂]
          have hrc : renderChars ⟨l.line_start, l.col_start, .instance_indent, none⟩
              = [' ', ' ', ' ', ' '] := rfl
          refine tokenFits_of_slice l.src l.pos
            ⟨l.line_start, l.col_start, .instance_indent, none⟩ ?_ ?_ ?_
            (by rw [hrc]; decide)
          · exact hls
          · exact hcs2
          · intro j hj
            have hj4 : j < 4 := by
              have : (renderChars
                ⟨l.line_start, l.col_start, .instance_indent, none⟩).length = 4 := rfl
              omega
            rw [hsps j (by omega)]
            interval_cases j <;> rfl
        refine ⟨LexInv_pushIndents (m / 4) l₂ hinv₂ (by rw [hcs₂, hcs]) hfit, ?_⟩
        rw [Lexer.pushIndents_spec]
        exact hsrc₂
  next e heq => exact absurd h (fun hx => LexRes.noConfusion hx)
  next heq => exact absurd h (fun hx => LexRes.noConfusion hx)

theorem Lexer.lex_name_loop_inv :
    ∀ fuel acc (l : Lexer) cs l', LexInv l →
      Lexer.lex_name_loop fuel acc l = .ok (cs, l') →
      LexInv l' ∧ l'.src = l.src := by
  intro fuel
  induction fuel with
  | zero => intro acc l cs l' _ h; exact LexRes.noConfusion h
  | succ fuel ih =>
    intro acc l cs l' hinv h
    unfold Lexer.lex_name_loop at h
    by_cases hlt : l.pos < l.src.length
    · rw [if_pos hlt] at h
      by_cases hg : (pyStrIsAlpha l.char || pyStrIsNumeric l.char ||
          l.char == some '_') = true
      · rw [if_pos hg] at h
        obtain ⟨hinv', hsrc⟩ := ih _ l.eat cs l' (LexInv_eat l hinv hlt) h
        exact ⟨hinv', by rw [hsrc, Lexer.eat_src]⟩
      · rw [if_neg hg] at h
        obtain ⟨h1, h2⟩ : acc = cs ∧ l = l' := by
          have hx := h; rw [LexRes.ok.injEq, Prod.mk.injEq] at hx; exact hx
        subst h1; subst h2; exact ⟨hinv, rfl⟩
    · rw [if_neg hlt] at h
      obtain ⟨h1, h2⟩ : acc = cs ∧ l = l' := by
        have hx := h; rw [LexRes.ok.injEq, Prod.mk.injEq] at hx; exact hx
      subst h1; subst h2; exact ⟨hinv, rfl⟩

theorem Lexer.lex_name_or_keyword_ok (fuel : Nat) (l l' : Lexer)
    (hinv : LexInv l)
    (hls : l.line_start = l.line) (hcs : l.col_start = l.col)
    (h : Lexer.lex_name_or_keyword fuel l = .ok l') :
    LexInv l' ∧ l'.src = l.src := by
  rcases hr : Lexer.lex_name_loop fuel [] l with p | e | u
  · obtain ⟨cs, l₂⟩ := p
    have hval : Lexer.lex_name_or_keyword fuel l = .ok (l₂.push_token
        (if KEYWORDS.contains (String.mk cs) then .instance_keyword
         else .instance_name) (some (String.mk cs))) := by
      unfold Lexer.lex_name_or_keyword
      rw [hr]
    rw [hval, LexRes.ok.injEq] at h
    subst h
    obtain ⟨hcs', _, hls₂, hcs₂⟩ :=
      Lexer.lex_name_loop_run fuel [] l cs l₂ hinv.coh hr
    obtain ⟨hinv₂, hsrc₂⟩ := Lexer.lex_name_loop_inv fuel [] l cs l₂ hinv hr
    rw [List.nil_append] at hcs'
    constructor
    · refine LexInv_push l₂ _ _ hinv₂ ?_ ?_
      · intro hk
        by_cases hx : KEYWORDS.contains (String.mk cs) = true
        · rw [if_pos hx] at hk; cases hk
        · rw [if_neg hx] at hk; cases hk
      · intro hnlr
        have hrender : renderChars ⟨l₂.line_start, l₂.col_start,
            (if KEYWORDS.contains (String.mk cs) then TokenKind.instance_keyword
             else TokenKind.instance_name), some (String.mk cs)⟩ = cs := by
          by_cases hx : KEYWORDS.contains (String.mk cs) = true
          · rw [if_pos hx]; rfl
          · rw [if_neg hx]; rfl
        rw [hsrc₂]
        refine tokenFits_of_slice l.src l.pos _ ?_ ?_ ?_ ?_
        · show l₂.line_start = lineOf l.src l.pos
          rw [hls₂, hls, hinv.hline]
        · show l₂.col_start = colOf l.src l.pos
          rw [hcs₂, hcs, hinv.hcol]
        · intro j hj
          rw [hrender] at hj ⊢
          rw [hcs'] at hj ⊢
          rw [takeWhile_get? _ _ j hj, List.get?_drop]
        · rw [hrender, hcs']
          intro hmem
          have hP := @List.mem_takeWhile_imp _
            (fun c => pyIsAlpha c || pyIsNumeric c || c == '_')
            (l.src.drop l.pos) '\n' hmem
          exact absurd hP (by decide)
    · show (l₂.push_token _ _).src = l.src
      exact hsrc₂
  · exact absurd h (by
      have hval : Lexer.lex_name_or_keyword fuel l = .fault e := by
        unfold Lexer.lex_name_or_keyword; rw [hr]
      rw [hval]
      exact fun hx => LexRes.noConfusion hx)
  · exact absurd h (by
      have hval : Lexer.lex_name_or_keyword fuel l = .outOfFuel := by
        unfold Lexer.lex_name_or_keyword; rw [hr]
      rw [hval]
      exact fun hx => LexRes.noConfusion hx)

theorem Lexer.lex_comment_loop_run :
    ∀ fuel acc (l : Lexer) cs l',
      l.char = l.src.get? l.pos →
      Lexer.lex_comment_loop fuel acc l = .ok (cs, l') →
      cs = acc ++ (l.src.drop l.pos).takeWhile (fun c => c ≠ '\n') ∧
      l'.tokens = l.tokens ∧ l'.line_start = l.line_start ∧
      l'.col_start = l.col_start := by
  intro fuel
  induction fuel with
  | zero => intro acc l cs l' _ h; exact LexRes.noConfusion h
  | succ fuel ih =>
    intro acc l cs l' hcoh h
    unfold Lexer.lex_comment_loop at h
    by_cases hlt : l.pos < l.src.length
    · rw [if_pos hlt] at h
      have hget : l.src.get? l.pos = some (l.src.get ⟨l.pos, hlt⟩) :=
        List.get?_eq_get hlt
      set c := l.src.get ⟨l.pos, hlt⟩ with hcdef
      have hchar : l.char = some c := by rw [hcoh, hget]
      have hdropc : l.src.drop l.pos = c :: l.src.drop (l.pos + 1) :=
        List.drop_eq_get_cons hlt
      by_cases hcnl : c = '\n'
      · rw [if_neg (by rw [hchar, hcnl]; exact fun hx => hx rfl)] at h
        obtain ⟨h1, h2⟩ : acc = cs ∧ l = l' := by
          have hx := h; rw [LexRes.ok.injEq, Prod.mk.injEq] at hx; exact hx
        subst h1; subst h2
        have hTW : List.takeWhile (fun c : Char => decide (c ≠ '\n'))
            (c :: List.drop (l.pos + 1) l.src) = [] :=
          List.takeWhile_cons_of_neg (by simp [hcnl])
        rw [hdropc, hTW]
        exact ⟨by simp, rfl, rfl, rfl⟩
      · rw [if_pos (by rw [hchar]; exact fun hx => hcnl (by injection hx))] at h
        have hcl : charChars l.char = [c] := by rw [hchar]; rfl
        rw [hcl] at h
        have hcoh' : l.eat.char = l.eat.src.get? l.eat.pos := by
          rw [Lexer.eat_char, Lexer.eat_src, Lexer.eat_pos]
        obtain ⟨h1, h2, h3, h4⟩ := ih (acc ++ [c]) l.eat cs l' hcoh' h
        have heat := Lexer.eat_of_ne_newline l (by
          rw [hchar]; exact fun hx => hcnl (by injection hx))
        rw [Lexer.eat_src, Lexer.eat_pos] at h1
        have hTW : List.takeWhile (fun c : Char => decide (c ≠ '\n'))
            (c :: List.drop (l.pos + 1) l.src) =
            c :: List.takeWhile (fun c : Char => decide (c ≠ '\n'))
              (List.drop (l.pos + 1) l.src) :=
          List.takeWhile_cons_of_pos (by simpa using hcnl)
        refine ⟨?_, ?_, ?_, ?_⟩
        · rw [h1, hdropc, hTW]
          simp
        · rw [h2, Lexer.eat_tokens]
        · rw [h3, heat]
        · rw [h4, heat]
    · rw [if_neg hlt] at h
      obtain ⟨h1, h2⟩ : acc = cs ∧ l = l' := by
        have hx := h; rw [LexRes.ok.injEq, Prod.mk.injEq] at hx; exact hx
      subst h1; subst h2
      rw [List.drop_eq_nil_of_le (by omega)]
      exact ⟨by simp, rfl, rfl, rfl⟩

theorem Lexer.lex_comment_loop_inv :
    ∀ fuel acc (l : Lexer) cs l', LexInv l →
      Lexer.lex_comment_loop fuel acc l = .ok (cs, l') →
      LexInv l' ∧ l'.src = l.src := by
  intro fuel
  induction fuel with
  | zero => intro acc l cs l' _ h; exact LexRes.noConfusion h
  | succ fuel ih =>
    intro acc l cs l' hinv h
    unfold Lexer.lex_comment_loop at h
    by_cases hlt : l.pos < l.src.length
    · rw [if_pos hlt] at h
      by_cases hg : l.char ≠ some '\n'
      · rw [if_pos hg] at h
        obtain ⟨hinv', hsrc⟩ := ih _ l.eat cs l' (LexInv_eat l hinv hlt) h
        exact ⟨hinv', by rw [hsrc, Lexer.eat_src]⟩
      · rw [if_neg hg] at h
        obtain ⟨h1, h2⟩ : acc = cs ∧ l = l' := by
          have hx := h; rw [LexRes.ok.injEq, Prod.mk.injEq] at hx; exact hx
        subst h1; subst h2; exact ⟨hinv, rfl⟩
    · rw [if_neg hlt] at h
      obtain ⟨h1, h2⟩ : acc = cs ∧ l = l' := by
        have hx := h; rw [LexRes.ok.injEq, Prod.mk.injEq] at hx; exact hx
      subst h1; subst h2; exact ⟨hinv, rfl⟩

theorem Lexer.lex_comment_ok (fuel : Nat) (l l' : Lexer)
    (hinv : LexInv l) (hchar : l.char = some '#')
    (hls : l.line_start = l.line) (hcs : l.col_start = l.col)
    (h : Lexer.lex_comment fuel l = .ok l') :
    LexInv l' ∧ l'.src = l.src := by
  have hget : l.src.get? l.pos = some '#' := by rw [← hinv.coh, hchar]
  have hlt := lt_of_get?_eq_some hget
  have h1 : l.eat_expecting '#' = .ok l.eat := by
    unfold Lexer.eat_expecting
    rw [if_pos hchar]
  have hinve : LexInv l.eat := LexInv_eat l hinv hlt
  have heat := Lexer.eat_of_ne_newline l (by rw [hchar]; decide)
  unfold Lexer.lex_comment at h
  split at h
  next l₃ heq3 =>
    rw [h1, LexRes.ok.injEq] at heq3
    subst heq3
    split at h
    next cs l₂ heq2 =>
      rw [LexRes.ok.injEq] at h
      subst h
      obtain ⟨hcs', _, hls₂, hcs₂⟩ :=
        Lexer.lex_comment_loop_run fuel [] l.eat cs l₂ hinve.coh heq2
      obtain ⟨hinv₂, hsrc₂⟩ :=
        Lexer.lex_comment_loop_inv fuel [] l.eat cs l₂ hinve heq2
      rw [List.nil_append, Lexer.eat_src, Lexer.eat_pos] at hcs'
      rw [Lexer.eat_src] at hsrc₂
      constructor
      · refine LexInv_push l₂ _ _ hinv₂ (fun hk => by cases hk) ?_
        intro hnlr
        have hrender : renderChars ⟨l₂.line_start, l₂.col_start,
            .instance_comment, some (String.mk cs)⟩ = '#' :: cs := rfl
        rw [hsrc₂]
        refine tokenFits_of_slice l.src l.pos _ ?_ ?_ ?_ hnlr
        · show l₂.line_start = lineOf l.src l.pos
          rw [hls₂, heat]
          show l.line_start = lineOf l.src l.pos
          rw [hls, hinv.hline]
        · show l₂.col_start = colOf l.src l.pos
          rw [hcs₂, heat]
          show l.col_start = colOf l.src l.pos
          rw [hcs, hinv.hcol]
        · intro j hj
          rw [hrender] at hj ⊢
          cases j with
          | zero => simpa using hget
          | succ j =>
            show l.src.get? (l.pos + (j + 1)) = cs.get? j
            have hjl : j < cs.length := by simpa using hj
            rw [hcs']
            rw [hcs'] at hjl
            rw [takeWhile_get? _ _ j hjl, List.get?_drop]
            rw [show l.pos + (j + 1) = l.pos + 1 + j by omega]
      · show (l₂.push_token _ _).src = l.src
        exact hsrc₂
    next e heq2 => exact LexRes.noConfusion h
    next heq2 => exact LexRes.noConfusion h
  next e heq3 =>
    rw [h1] at heq3
    exact LexRes.noConfusion heq3
  next heq3 =>
    rw [h1] at heq3
    exact LexRes.noConfusion heq3

/-- Comprehensive characterization of a *successful* string-content loop:
the captured characters sit verbatim at the cursor, the final state sees the
closing quote, the invariant is preserved, and the token-start snapshot is
unchanged when no newline was consumed. -/
theorem Lexer.lex_string_loop_ok :
    ∀ fuel q acc (l : Lexer) cs l',
      LexInv l →
      Lexer.lex_string_loop fuel q acc l = .ok (cs, l') →
      ∃ w, cs = acc ++ w ∧
        (∀ j, j < w.length → l.src.get? (l.pos + j) = w.get? j) ∧
        l'.src = l.src ∧ l'.pos = l.pos + w.length ∧ l'.char = some q ∧
        l'.tokens = l.tokens ∧ LexInv l' ∧
        ('\n' ∉ w → l'.line_start = l.line_start ∧ l'.col_start = l.col_start) := by
  intro fuel
  induction fuel with
  | zero => intro q acc l cs l' _ h; exact LexRes.noConfusion h
  | succ fuel ih =>
    intro q acc l cs l' hinv h
    unfold Lexer.lex_string_loop at h
    by_cases hq : l.char = some q
    · rw [if_pos hq] at h
      obtain ⟨h1, h2⟩ : acc = cs ∧ l = l' := by
        have hx := h; rw [LexRes.ok.injEq, Prod.mk.injEq] at hx; exact hx
      subst h1; subst h2
      exact ⟨[], by simp, by intro j hj; simp at hj, rfl, by simp, hq, rfl, hinv,
        fun _ => ⟨rfl, rfl⟩⟩
    · rw [if_neg hq] at h
      cases hcc : l.char with
      | none =>
        have hnone : l.src.get? l.pos = none := by rw [← hinv.coh, hcc]
        have hlen : l.src.length ≤ l.pos := List.get?_eq_none.mp hnone
        have hstuck := Lexer.lex_string_loop_stuck fuel q
          (acc ++ charChars l.char) l.eat
          (by rw [Lexer.eat_src, Lexer.eat_pos]; omega)
          (by rw [Lexer.eat_char]
              exact List.get?_eq_none.mpr (by omega))
        rw [hstuck] at h
        exact LexRes.noConfusion h
      | some c =>
        have hget : l.src.get? l.pos = some c := by rw [← hinv.coh, hcc]
        have hlt := lt_of_get?_eq_some hget
        have hcl : charChars l.char = [c] := by rw [hcc]; rfl
        rw [hcl] at h
        obtain ⟨w', hcs', hslice, hsrc, hpos, hchar', htok, hinv', hsnap⟩ :=
          ih q (acc ++ [c]) l.eat cs l' (LexInv_eat l hinv hlt) h
        refine ⟨c :: w', ?_, ?_, ?_, ?_, hchar', ?_, hinv', ?_⟩
        · rw [hcs']; simp
        · intro j hj
          cases j with
          | zero => simpa using hget
          | succ j =>
            have hx := hslice j (by simpa using hj)
            rw [Lexer.eat_src, Lexer.eat_pos] at hx
            rw [show l.pos + (j + 1) = l.pos + 1 + j by omega]
            exact hx
        · rw [hsrc, Lexer.eat_src]
        · rw [hpos, Lexer.eat_pos]
          simp
          omega
        · rw [htok, Lexer.eat_tokens]
        · intro hnl
          have hcnl : c ≠ '\n' := fun hh => hnl (by rw [hh]; exact List.mem_cons_self _ _)
          have hwnl : '\n' ∉ w' := fun hh => hnl (List.mem_cons_of_mem _ hh)
          have heat := Lexer.eat_of_ne_newline l (by
            rw [hcc]; exact fun hx => hcnl (by injection hx))
          obtain ⟨hA, hB⟩ := hsnap hwnl
          exact ⟨by rw [hA, heat], by rw [hB, heat]⟩

theorem Lexer.lex_string_ok (fuel : Nat) (q : Char) (l l' : Lexer)
    (hinv : LexInv l) (hchar : l.char = some q) (hq : q ≠ '\n')
    (hls : l.line_start = l.line) (hcs : l.col_start = l.col)
    (h : Lexer.lex_string fuel q l = .ok l') :
    LexInv l' ∧ l'.src = l.src := by
  have hget : l.src.get? l.pos = some q := by rw [← hinv.coh, hchar]
  have hlt := lt_of_get?_eq_some hget
  have hinve : LexInv l.eat := LexInv_eat l hinv hlt
  have heat := Lexer.eat_of_ne_newline l (by
    rw [hchar]; exact fun hx => hq (by injection hx))
  unfold Lexer.lex_string at h
  split at h
  next cs l₂ heq =>
    obtain ⟨w, hw, hslice, hsrc₂, hpos₂, hchar₂, htok₂, hinv₂, hsnap₂⟩ :=
      Lexer.lex_string_loop_ok fuel q [] l.eat cs l₂ hinve heq
    rw [List.nil_append] at hw
    subst hw
    rw [Lexer.eat_src] at hsrc₂
    rw [Lexer.eat_pos] at hpos₂
    have hpinv : LexInv (l₂.push_token .instance_string
        (some (String.mk (q :: (cs ++ [q]))))) := by
      refine LexInv_push l₂ _ _ hinv₂ (fun hk => by cases hk) ?_
      intro hnlr
      have hrender : renderChars ⟨l₂.line_start, l₂.col_start, .instance_string,
          some (String.mk (q :: (cs ++ [q])))⟩ = q :: (cs ++ [q]) := rfl
      have hcsnl : '\n' ∉ cs := fun hh => by
        rw [hrender] at hnlr
        exact hnlr (List.mem_cons_of_mem _ (List.mem_append.mpr (Or.inl hh)))
      obtain ⟨hA, hB⟩ := hsnap₂ hcsnl
      rw [hsrc₂]
      refine tokenFits_of_slice l.src l.pos _ ?_ ?_ ?_ hnlr
      · show l₂.line_start = lineOf l.src l.pos
        rw [hA, heat]
        show l.line_start = lineOf l.src l.pos
        rw [hls, hinv.hline]
      · show l₂.col_start = colOf l.src l.pos
        rw [hB, heat]
        show l.col_start = colOf l.src l.pos
        rw [hcs, hinv.hcol]
      · intro j hj
        rw [hrender] at hj ⊢
        cases j with
        | zero => simpa using hget
        | succ j =>
          show l.src.get? (l.pos + (j + 1)) = (cs ++ [q]).get? j
          have hjlen : j < cs.length + 1 := by
            have hlen : (q :: (cs ++ [q])).length = cs.length + 2 := by simp
            omega
          by_cases hjl : j < cs.length
          · rw [List.get?_append hjl]
            have hx := hslice j hjl
            rw [Lexer.eat_src, Lexer.eat_pos] at hx
            rw [show l.pos + (j + 1) = l.pos + 1 + j by omega]
            exact hx
          · have hje : j = cs.length := by omega
            subst hje
            rw [List.get?_append_right (by omega), Nat.sub_self]
            have hc2 := hinv₂.coh
            rw [hchar₂, hsrc₂, hpos₂] at hc2
            rw [show l.pos + (cs.length + 1) = l.pos + 1 + cs.length by omega]
            exact hc2.symm
    have hpchar : (l₂.push_token .instance_string
        (some (String.mk (q :: (cs ++ [q]))))).char = some q := hchar₂
    rw [show (l₂.push_token .instance_string
        (some (String.mk (q :: (cs ++ [q]))))).eat_expecting q =
        .ok ((l₂.push_token .instance_string
        (some (String.mk (q :: (cs ++ [q]))))).eat) from by
      unfold Lexer.eat_expecting; rw [if_pos hpchar]] at h
    rw [LexRes.ok.injEq] at h
    subst h
    have hplt : (l₂.push_token .instance_string
        (some (String.mk (q :: (cs ++ [q]))))).pos <
        (l₂.push_token .instance_string
        (some (String.mk (q :: (cs ++ [q]))))).src.length := by
      show l₂.pos < l₂.src.length
      exact lt_of_get?_eq_some (by rw [← hinv₂.coh]; exact hchar₂)
    refine ⟨LexInv_eat _ hpinv hplt, ?_⟩
    rw [Lexer.eat_src]
    show l₂.src = l.src
    exact hsrc₂
  next e heq => exact LexRes.noConfusion h
  next heq => exact LexRes.noConfusion h

/-- Emitting a bare single-character operator token and advancing preserves
the invariant. -/
theorem Lexer.onechar_inv (l : Lexer) (c1 : Char) (k : TokenKind)
    (hinv : LexInv l) (hchar : l.char = some c1) (hc1 : c1 ≠ '\n')
    (hls : l.line_start = l.line) (hcs : l.col_start = l.col)
    (hrender : renderChars ⟨l.line_start, l.col_start, k, none⟩ = [c1])
    (hkind : k ≠ .instance_indent) :
    LexInv ((l.push_token k none).eat) ∧
    ((l.push_token k none).eat).src = l.src := by
  have hget : l.src.get? l.pos = some c1 := by rw [← hinv.coh, hchar]
  have hlt := lt_of_get?_eq_some hget
  have hpinv : LexInv (l.push_token k none) := by
    refine LexInv_push l k none hinv (fun hk => absurd hk hkind) ?_
    intro hnlr
    refine tokenFits_of_slice l.src l.pos _ ?_ ?_ ?_ hnlr
    · show l.line_start = lineOf l.src l.pos
      rw [hls, hinv.hline]
    · show l.col_start = colOf l.src l.pos
      rw [hcs, hinv.hcol]
    · intro j hj
      rw [hrender] at hj ⊢
      have hj0 : j = 0 := by simp at hj; omega
      subst hj0
      simpa using hget
  have hplt : (l.push_token k none).pos < (l.push_token k none).src.length := hlt
  refine ⟨LexInv_eat _ hpinv hplt, ?_⟩
  rw [Lexer.eat_src]
  rfl

/-- Emitting a two-character compound operator token and confirming both
characters preserves the invariant; the two `eat_expecting` calls succeed. -/
theorem Lexer.twochar_inv (l : Lexer) (c1 c2 : Char) (k : TokenKind)
    (hinv : LexInv l) (hchar : l.char = some c1) (hpeek : l.peek = some c2)
    (hc1 : c1 ≠ '\n') (hc2 : c2 ≠ '\n')
    (hls : l.line_start = l.line) (hcs : l.col_start = l.col)
    (hrender : renderChars ⟨l.line_start, l.col_start, k, none⟩ = [c1, c2])
    (hkind : k ≠ .instance_indent) :
    LexInv (((l.push_token k none).eat).eat) ∧
    (((l.push_token k none).eat).eat).src = l.src ∧
    (l.push_token k none).eat_expecting c1 = .ok ((l.push_token k none).eat) ∧
    ((l.push_token k none).eat).eat_expecting c2 =
      .ok (((l.push_token k none).eat).eat) := by
  have hget : l.src.get? l.pos = some c1 := by rw [← hinv.coh, hchar]
  have hget2 : l.src.get? (l.pos + 1) = some c2 := hpeek
  have hlt := lt_of_get?_eq_some hget
  have hlt2 := lt_of_get?_eq_some hget2
  have hpinv : LexInv (l.push_token k none) := by
    refine LexInv_push l k none hinv (fun hk => absurd hk hkind) ?_
    intro hnlr
    refine tokenFits_of_slice l.src l.pos _ ?_ ?_ ?_ hnlr
    · show l.line_start = lineOf l.src l.pos
      rw [hls, hinv.hline]
    · show l.col_start = colOf l.src l.pos
      rw [hcs, hinv.hcol]
    · intro j hj
      rw [hrender] at hj ⊢
      have hj2 : j < 2 := by simpa using hj
      match j, hj2 with
      | 0, _ => simpa using hget
      | 1, _ => simpa using hget2
  have hp1 : LexInv ((l.push_token k none).eat) := LexInv_eat _ hpinv hlt
  have hech : ((l.push_token k none).eat).char = some c2 := by
    rw [Lexer.eat_char]
    exact hget2
  have he1 : (l.push_token k none).eat_expecting c1 =
      .ok ((l.push_token k none).eat) := by
    unfold Lexer.eat_expecting
    rw [if_pos (show (l.push_token k none).char = some c1 from hchar)]
  have hp2lt : ((l.push_token k none).eat).pos <
      ((l.push_token k none).eat).src.length := by
    rw [Lexer.eat_pos, Lexer.eat_src]
    exact hlt2
  have hp2 : LexInv (((l.push_token k none).eat).eat) := LexInv_eat _ hp1 hp2lt
  have he2 : ((l.push_token k none).eat).eat_expecting c2 =
      .ok (((l.push_token k none).eat).eat) := by
    unfold Lexer.eat_expecting
    rw [if_pos hech]
  refine ⟨hp2, ?_, he1, he2⟩
  rw [Lexer.eat_src, Lexer.eat_src]
  rfl

/-- The main dispatch preserves the invariant: any successful step from a
coherent, snapshotted state yields a coherent state over the same input. -/
theorem Lexer.lex_dispatch_inv (fuel : Nat) (l l' : Lexer)
    (hinv : LexInv l) (hlt : l.pos < l.src.length)
    (hls : l.line_start = l.line) (hcs : l.col_start = l.col)
    (h : Lexer.lex_dispatch fuel l = .ok l') :
    LexInv l' ∧ l'.src = l.src := by
  obtain ⟨c, hcg⟩ : ∃ c, l.src.get? l.pos = some c := by
    rw [List.get?_eq_get hlt]; exact ⟨_, rfl⟩
  have hchar : l.char = some c := by rw [hinv.coh, hcg]
  unfold Lexer.lex_dispatch at h
  by_cases hx1 : c = '\n'
  · subst hx1
    rw [if_pos hchar] at h
    have hget : l.src.get? l.pos = some '\n' := by rw [← hinv.coh, hchar]
    have hinve := LexInv_eat l hinv hlt
    have heatn := Lexer.eat_of_newline l hchar
    have hls2 : l.eat.line_start = lineOf l.eat.src l.eat.pos := by
      rw [heatn]
      show l.line + 1 = lineOf l.src (l.pos + 1)
      rw [lineOf_succ_of_eq l.src l.pos hget, hinv.hline]
    have hcsA : l.eat.col_start = 1 := by rw [heatn]
    have hcsB : l.eat.col_start = colOf l.eat.src l.eat.pos := by
      rw [heatn]
      show (1 : Nat) = colOf l.src (l.pos + 1)
      rw [colOf_succ_of_eq l.src l.pos hget]
    obtain ⟨hA, hB⟩ := Lexer.lex_indentation_ok fuel l.eat l' hinve hls2 hcsA hcsB h
    exact ⟨hA, by rw [hB, Lexer.eat_src]⟩
  rw [if_neg (by intro hh; rw [hchar] at hh; injection hh with hh2; exact hx1 hh2)] at h
  by_cases hx2 : c = ' '
  · subst hx2
    rw [if_pos hchar] at h
    rw [LexRes.ok.injEq] at h
    subst h
    exact ⟨LexInv_eat l hinv hlt, Lexer.eat_src l⟩
  rw [if_neg (by intro hh; rw [hchar] at hh; injection hh with hh2; exact hx2 hh2)] at h
  by_cases hx3 : c = '='
  · subst hx3
    rw [if_pos hchar] at h
    split at h
    next hp =>
      obtain ⟨hP2, hS2, hE1, hE2⟩ := Lexer.twochar_inv l '=' '=' .eqEq hinv hchar
        hp (by decide) (by decide) hls hcs rfl (by decide)
      split at h
      next l₂ heq2 =>
        rw [hE1, LexRes.ok.injEq] at heq2
        subst heq2
        rw [hE2, LexRes.ok.injEq] at h
        subst h
        exact ⟨hP2, hS2⟩
      next r heqx => exact absurd hE1 (heqx _)
    next c2 hq1 =>
      rw [LexRes.ok.injEq] at h
      subst h
      exact Lexer.onechar_inv l '=' .eq hinv hchar (by decide) hls hcs rfl (by decide)
  rw [if_neg (by intro hh; rw [hchar] at hh; injection hh with hh2; exact hx3 hh2)] at h
  by_cases hx4 : c = '%'
  · subst hx4
    rw [if_pos hchar] at h
    split at h
    next hp =>
      obtain ⟨hP2, hS2, hE1, hE2⟩ := Lexer.twochar_inv l '%' '=' .percentEq hinv hchar
        hp (by decide) (by decide) hls hcs rfl (by decide)
      split at h
      next l₂ heq2 =>
        rw [hE1, LexRes.ok.injEq] at heq2
        subst heq2
        rw [hE2, LexRes.ok.injEq] at h
        subst h
        exact ⟨hP2, hS2⟩
      next r heqx => exact absurd hE1 (heqx _)
    next c2 hq1 =>
      rw [LexRes.ok.injEq] at h
      subst h
      exact Lexer.onechar_inv l '%' .percent hinv hchar (by decide) hls hcs rfl (by decide)
  rw [if_neg (by intro hh; rw [hchar] at hh; injection hh with hh2; exact hx4 hh2)] at h
  by_cases hx5 : c = '+'
  · subst hx5
    rw [if_pos hchar] at h
    split at h
    next hp =>
      obtain ⟨hP2, hS2, hE1, hE2⟩ := Lexer.twochar_inv l '+' '=' .plusEq hinv hchar
        hp (by decide) (by decide) hls hcs rfl (by decide)
      split at h
      next l₂ heq2 =>
        rw [hE1, LexRes.ok.injEq] at heq2
        subst heq2
        rw [hE2, LexRes.ok.injEq] at h
        subst h
        exact ⟨hP2, hS2⟩
      next r heqx => exact absurd hE1 (heqx _)
    next c2 hq1 =>
      rw [LexRes.ok.injEq] at h
      subst h
      exact Lexer.onechar_inv l '+' .plus hinv hchar (by decide) hls hcs rfl (by decide)
  rw [if_neg (by intro hh; rw [hchar] at hh; injection hh with hh2; exact hx5 hh2)] at h
  by_cases hx6 : c = '*'
  · subst hx6
    rw [if_pos hchar] at h
    split at h
    next hp =>
      obtain ⟨hP2, hS2, hE1, hE2⟩ := Lexer.twochar_inv l '*' '*' .starStar hinv hchar
        hp (by decide) (by decide) hls hcs rfl (by decide)
      split at h
      next l₂ heq2 =>
        rw [hE1, LexRes.ok.injEq] at heq2
        subst heq2
        rw [hE2, LexRes.ok.injEq] at h
        subst h
        exact ⟨hP2, hS2⟩
      next r heqx => exact absurd hE1 (heqx _)
    next hp =>
      obtain ⟨hP2, hS2, hE1, hE2⟩ := Lexer.twochar_inv l '*' '=' .starEq hinv hchar
        hp (by decide) (by decide) hls hcs rfl (by decide)
      split at h
      next l₂ heq2 =>
        rw [hE1, LexRes.ok.injEq] at heq2
        subst heq2
        rw [hE2, LexRes.ok.injEq] at h
        subst h
        exact ⟨hP2, hS2⟩
      next r heqx => exact absurd hE1 (heqx _)
    next c2 hq1 hq2 =>
      rw [LexRes.ok.injEq] at h
      subst h
      exact Lexer.onechar_inv l '*' .star hinv hchar (by decide) hls hcs rfl (by decide)
  rw [if_neg (by intro hh; rw [hchar] at hh; injection hh with hh2; exact hx6 hh2)] at h
  by_cases hx7 : c = '/'
  · subst hx7
    rw [if_pos hchar] at h
    split at h
    next hp =>
      obtain ⟨hP2, hS2, hE1, hE2⟩ := Lexer.twochar_inv l '/' '/' .slashSlash hinv hchar
        hp (by decide) (by decide) hls hcs rfl (by decide)
      split at h
      next l₂ heq2 =>
        rw [hE1, LexRes.ok.injEq] at heq2
        subst heq2
        rw [hE2, LexRes.ok.injEq] at h
        subst h
        exact ⟨hP2, hS2⟩
      next r heqx => exact absurd hE1 (heqx _)
    next hp =>
      obtain ⟨hP2, hS2, hE1, hE2⟩ := Lexer.twochar_inv l '/' '=' .slashEq hinv hchar
        hp (by decide) (by decide) hls hcs rfl (by decide)
      split at h
      next l₂ heq2 =>
        rw [hE1, LexRes.ok.injEq] at heq2
        subst heq2
        rw [hE2, LexRes.ok.injEq] at h
        subst h
        exact ⟨hP2, hS2⟩
      next r heqx => exact absurd hE1 (heqx _)
    next c2 hq1 hq2 =>
      rw [LexRes.ok.injEq] at h
      subst h
      exact Lexer.onechar_inv l '/' .slash hinv hchar (by decide) hls hcs rfl (by decide)
  rw [if_neg (by intro hh; rw [hchar] at hh; injection hh with hh2; exact hx7 hh2)] at h
  by_cases hx8 : c = '-'
  · subst hx8
    rw [if_pos hchar] at h
    split at h
    next hp =>
      have hfe : (l.push_token .minusEq none).eat_expecting '=' =
          .fault (.assertionFailed (l.push_token .minusEq none).char '='
            (l.push_token .minusEq none).line (l.push_token .minusEq none).col) := by
        unfold Lexer.eat_expecting
        rw [if_neg (by
          intro hh
          have hh2 : l.char = some '=' := hh
          rw [hchar] at hh2
          injection hh2 with hh3
          exact absurd hh3 (by decide))]
      rw [hfe] at h
      exact LexRes.noConfusion h
    next hp =>
      obtain ⟨hP2, hS2, hE1, hE2⟩ := Lexer.twochar_inv l '-' '>' .arrow hinv hchar
        hp (by decide) (by decide) hls hcs rfl (by decide)
      rw [hE2, LexRes.ok.injEq] at h
      subst h
      exact ⟨hP2, hS2⟩
    next c2 hq1 hq2 =>
      rw [LexRes.ok.injEq] at h
      subst h
      exact Lexer.onechar_inv l '-' .minus hinv hchar (by decide) hls hcs rfl (by decide)
  rw [if_neg (by intro hh; rw [hchar] at hh; injection hh with hh2; exact hx8 hh2)] at h
  by_cases hx9 : c = '>'
  · subst hx9
    rw [if_pos hchar] at h
    split at h
    next hp =>
      obtain ⟨hP2, hS2, hE1, hE2⟩ := Lexer.twochar_inv l '>' '=' .gtEq hinv hchar
        hp (by decide) (by decide) hls hcs rfl (by decide)
      split at h
      next l₂ heq2 =>
        rw [hE1, LexRes.ok.injEq] at heq2
        subst heq2
        rw [hE2, LexRes.ok.injEq] at h
        subst h
        exact ⟨hP2, hS2⟩
      next r heqx => exact absurd hE1 (heqx _)
    next c2 hq1 =>
      rw [LexRes.ok.injEq] at h
      subst h
      exact Lexer.onechar_inv l '>' .gt hinv hchar (by decide) hls hcs rfl (by decide)
  rw [if_neg (by intro hh; rw [hchar] at hh; injection hh with hh2; exact hx9 hh2)] at h
  by_cases hx10 : c = '<'
  · subst hx10
    rw [if_pos hchar] at h
    split at h
    next hp =>
      obtain ⟨hP2, hS2, hE1, hE2⟩ := Lexer.twochar_inv l '<' '=' .ltEq hinv hchar
        hp (by decide) (by decide) hls hcs rfl (by decide)
      split at h
      next l₂ heq2 =>
        rw [hE1, LexRes.ok.injEq] at heq2
        subst heq2
        rw [hE2, LexRes.ok.injEq] at h
        subst h
        exact ⟨hP2, hS2⟩
      next r heqx => exact absurd hE1 (heqx _)
    next c2 hq1 =>
      rw [LexRes.ok.injEq] at h
      subst h
      exact Lexer.onechar_inv l '<' .lt hinv hchar (by decide) hls hcs rfl (by decide)
  rw [if_neg (by intro hh; rw [hchar] at hh; injection hh with hh2; exact hx10 hh2)] at h
  by_cases hx11 : c = ':'
  · subst hx11
    rw [if_pos hchar] at h
    split at h
    next hp =>
      obtain ⟨hP2, hS2, hE1, hE2⟩ := Lexer.twochar_inv l ':' '=' .colonEq hinv hchar
        hp (by decide) (by decide) hls hcs rfl (by decide)
      split at h
      next l₂ heq2 =>
        rw [hE1, LexRes.ok.injEq] at heq2
        subst heq2
        rw [hE2, LexRes.ok.injEq] at h
        subst h
        exact ⟨hP2, hS2⟩
      next r heqx => exact absurd hE1 (heqx _)
    next c2 hq1 =>
      rw [LexRes.ok.injEq] at h
      subst h
      exact Lexer.onechar_inv l ':' .colon hinv hchar (by decide) hls hcs rfl (by decide)
  rw [if_neg (by intro hh; rw [hchar] at hh; injection hh with hh2; exact hx11 hh2)] at h
  by_cases hx12 : c = '!'
  · subst hx12
    rw [if_pos hchar] at h
    split at h
    next hp =>
      obtain ⟨hP2, hS2, hE1, hE2⟩ := Lexer.twochar_inv l '!' '=' .bangEq hinv hchar
        hp (by decide) (by decide) hls hcs rfl (by decide)
      split at h
      next l₂ heq2 =>
        rw [hE1, LexRes.ok.injEq] at heq2
        subst heq2
        rw [hE2, LexRes.ok.injEq] at h
        subst h
        exact ⟨hP2, hS2⟩
      next r heqx => exact absurd hE1 (heqx _)
    next c2 hq1 =>
      exact LexRes.noConfusion h
  rw [if_neg (by intro hh; rw [hchar] at hh; injection hh with hh2; exact hx12 hh2)] at h
  by_cases hx13 : c = '|'
  · subst hx13
    rw [if_pos hchar] at h
    rw [LexRes.ok.injEq] at h
    subst h
    exact Lexer.onechar_inv l '|' .pipe hinv hchar (by decide) hls hcs rfl (by decide)
  rw [if_neg (by intro hh; rw [hchar] at hh; injection hh with hh2; exact hx13 hh2)] at h
  by_cases hx14 : c = lbraceChar
  · subst hx14
    rw [if_pos hchar] at h
    rw [LexRes.ok.injEq] at h
    subst h
    exact Lexer.onechar_inv l lbraceChar .lbrace hinv hchar (by decide) hls hcs rfl (by decide)
  rw [if_neg (by intro hh; rw [hchar] at hh; injection hh with hh2; exact hx14 hh2)] at h
  by_cases hx15 : c = rbraceChar
  · subst hx15
    rw [if_pos hchar] at h
    rw [LexRes.ok.injEq] at h
    subst h
    exact Lexer.onechar_inv l rbraceChar .rbrace hinv hchar (by decide) hls hcs rfl (by decide)
  rw [if_neg (by intro hh; rw [hchar] at hh; injection hh with hh2; exact hx15 hh2)] at h
  by_cases hx16 : c = '['
  · subst hx16
    rw [if_pos hchar] at h
    rw [LexRes.ok.injEq] at h
    subst h
    exact Lexer.onechar_inv l '[' .lbracket hinv hchar (by decide) hls hcs rfl (by decide)
  rw [if_neg (by intro hh; rw [hchar] at hh; injection hh with hh2; exact hx16 hh2)] at h
  by_cases hx17 : c = ']'
  · subst hx17
    rw [if_pos hchar] at h
    rw [LexRes.ok.injEq] at h
    subst h
    exact Lexer.onechar_inv l ']' .rbracket hinv hchar (by decide) hls hcs rfl (by decide)
  rw [if_neg (by intro hh; rw [hchar] at hh; injection hh with hh2; exact hx17 hh2)] at h
  by_cases hx18 : c = '('
  · subst hx18
    rw [if_pos hchar] at h
    rw [LexRes.ok.injEq] at h
    subst h
    exact Lexer.onechar_inv l '(' .lparen hinv hchar (by decide) hls hcs rfl (by decide)
  rw [if_neg (by intro hh; rw [hchar] at hh; injection hh with hh2; exact hx18 hh2)] at h
  by_cases hx19 : c = ')'
  · subst hx19
    rw [if_pos hchar] at h
    rw [LexRes.ok.injEq] at h
    subst h
    exact Lexer.onechar_inv l ')' .rparen hinv hchar (by decide) hls hcs rfl (by decide)
  rw [if_neg (by intro hh; rw [hchar] at hh; injection hh with hh2; exact hx19 hh2)] at h
  by_cases hx20 : c = '.'
  · subst hx20
    rw [if_pos hchar] at h
    rw [LexRes.ok.injEq] at h
    subst h
    exact Lexer.onechar_inv l '.' .dot hinv hchar (by decide) hls hcs rfl (by decide)
  rw [if_neg (by intro hh; rw [hchar] at hh; injection hh with hh2; exact hx20 hh2)] at h
  by_cases hx21 : c = ','
  · subst hx21
    rw [if_pos hchar] at h
    rw [LexRes.ok.injEq] at h
    subst h
    exact Lexer.onechar_inv l ',' .comma hinv hchar (by decide) hls hcs rfl (by decide)
  rw [if_neg (by intro hh; rw [hchar] at hh; injection hh with hh2; exact hx21 hh2)] at h
  by_cases hx22 : c = squoteChar
  · subst hx22
    rw [if_pos hchar] at h
    exact Lexer.lex_string_ok fuel squoteChar l l' hinv hchar (by decide) hls hcs h
  rw [if_neg (by intro hh; rw [hchar] at hh; injection hh with hh2; exact hx22 hh2)] at h
  by_cases hx23 : c = dquoteChar
  · subst hx23
    rw [if_pos hchar] at h
    exact Lexer.lex_string_ok fuel dquoteChar l l' hinv hchar (by decide) hls hcs h
  rw [if_neg (by intro hh; rw [hchar] at hh; injection hh with hh2; exact hx23 hh2)] at h
  by_cases hg : (pyStrIsAlpha l.char || pyStrIsNumeric l.char || l.char == some '_') = true
  · rw [if_pos hg] at h
    exact Lexer.lex_name_or_keyword_ok fuel l l' hinv hls hcs h
  rw [if_neg hg] at h
  by_cases hg2 : pyStrIsNumeric l.char = true
  · exact absurd (by rw [hg2]; simp) hg
  rw [if_neg hg2] at h
  by_cases hx24 : c = '#'
  · subst hx24
    rw [if_pos hchar] at h
    exact Lexer.lex_comment_ok fuel l l' hinv hchar hls hcs h
  rw [if_neg (by intro hh; rw [hchar] at hh; injection hh with hh2; exact hx24 hh2)] at h
  exact LexRes.noConfusion h

theorem Lexer.lex_step_inv (fuel : Nat) (l0 l' : Lexer) (hinv : LexInv l0)
    (hlt : l0.pos < l0.src.length)
    (h : Lexer.lex_step fuel l0 = .ok l') : LexInv l' ∧ l'.src = l0.src := by
  unfold Lexer.lex_step at h
  exact Lexer.lex_dispatch_inv fuel
    { l0 with line_start := l0.line, col_start := l0.col } l'
    (LexInv_snap l0 hinv) hlt rfl rfl h

theorem Lexer.lex_loop_inv :
    ∀ fuel (l : Lexer) toks, LexInv l → Lexer.lex_loop fuel l = .ok toks →
      ∃ lf, LexInv lf ∧ lf.tokens = toks ∧ lf.src = l.src := by
  intro fuel
  induction fuel with
  | zero =>
    intro l toks hinv h
    unfold Lexer.lex_loop at h
    split at h
    · exact LexRes.noConfusion h
    · rw [LexRes.ok.injEq] at h
      exact ⟨l, hinv, h, rfl⟩
  | succ fuel ih =>
    intro l toks hinv h
    unfold Lexer.lex_loop at h
    split at h
    next hpl =>
      split at h
      next l₂ heq =>
        obtain ⟨hinv₂, hsrc₂⟩ := Lexer.lex_step_inv fuel l l₂ hinv hpl heq
        obtain ⟨lf, h1, h2, h3⟩ := ih l₂ toks hinv₂ h
        exact ⟨lf, h1, h2, by rw [h3, hsrc₂]⟩
      next e heq => exact LexRes.noConfusion h
      next heq => exact LexRes.noConfusion h
    next hpl =>
      rw [LexRes.ok.injEq] at h
      exact ⟨l, hinv, h, rfl⟩

theorem LexInv_init (s : String) : LexInv (Lexer.init s) := by
  refine ⟨rfl, ?_, ?_, posLe_refl _, ⟨le_refl 1, le_refl 1⟩, ?_, ?_, ?_, ?_, ?_⟩
  · show (1 : Nat) = lineOf s.toList 0
    rw [lineOf_zero]
  · show (1 : Nat) = colOf s.toList 0
    rw [colOf_zero]
  · intro t ht
    exact absurd ht (List.not_mem_nil t)
  · exact List.Pairwise.nil
  · intro t ht
    exact absurd ht (List.not_mem_nil t)
  · intro t ht
    exact absurd ht (List.not_mem_nil t)
  · intro t ht
    exact absurd ht (List.not_mem_nil t)

/-! ### C8 -/

/-- **C8.**  For every input on which `Lexer.lex` succeeds, the `(line, col)`
pairs of the emitted tokens, in stream order, are non-decreasing in
lexicographic order. -/
theorem C8_position_monotone (fuel : Nat) (src : String) (toks : List Token)
    (h : Lexer.lex fuel src = .ok toks) :
    toks.Pairwise (fun a b => posLe (tokPos a) (tokPos b)) := by
  obtain ⟨lf, hinv, htoks, _⟩ :=
    Lexer.lex_loop_inv fuel (Lexer.init src) toks (LexInv_init src) h
  rw [← htoks]
  exact hinv.mono

/-- Witness for C8 on the concrete input `"a b"`. -/
theorem C8_witness :
    List.Pairwise (fun a b => posLe (tokPos a) (tokPos b))
      [(⟨1, 1, .instance_name, some "a"⟩ : Token),
       ⟨1, 3, .instance_name, some "b"⟩] :=
  C8_position_monotone 20 "a b"
    [⟨1, 1, .instance_name, some "a"⟩, ⟨1, 3, .instance_name, some "b"⟩]
    (by decide)

/-! ### C6 (amended) -/

/-- **C6 (amended).**  Every indent token emitted by a successful scan
carries column 1 (not `4*(i-1)+1`): the token-start column snapshot is reset
to 1 when the newline is consumed and is not advanced while the indentation
sub-scanner counts spaces, so all `count/4` indent tokens of a line are
recorded at the line's first column. -/
theorem C6_indent_tokens_column_one (fuel : Nat) (src : String)
    (toks : List Token) (h : Lexer.lex fuel src = .ok toks) :
    ∀ t ∈ toks, t.kind = .instance_indent → t.col = 1 := by
  obtain ⟨lf, hinv, htoks, _⟩ :=
    Lexer.lex_loop_inv fuel (Lexer.init src) toks (LexInv_init src) h
  rw [← htoks]
  exact hinv.indent1

/-- Witness for C6 (amended): the second indent token of the 8-space line
carries column 1. -/
theorem C6_witness : (⟨2, 1, .instance_indent, none⟩ : Token).col = 1 :=
  C6_indent_tokens_column_one 40 "a\n        b"
    [⟨1, 1, .instance_name, some "a"⟩, ⟨2, 1, .instance_indent, none⟩,
     ⟨2, 1, .instance_indent, none⟩, ⟨2, 9, .instance_name, some "b"⟩]
    (by decide) ⟨2, 1, .instance_indent, none⟩ (by decide) rfl

/-! ### Reconstruction buffer lemmas -/

theorem replicate_get? {α : Type} (n m : Nat) (a : α) :
    (List.replicate n a).get? m = if m < n then some a else none := by
  rw [List.get?_eq_getElem?]
  exact List.getElem?_replicate

theorem setChars_get? : ∀ (cs row : List Char) (i j : Nat),
    i + cs.length ≤ row.length →
    (setChars row i cs).get? j =
      if i ≤ j ∧ j < i + cs.length then cs.get? (j - i) else row.get? j := by
  intro cs
  induction cs with
  | nil =>
    intro row i j _
    rw [if_neg (by simp only [List.length_nil]; omega)]
    rfl
  | cons c cs ih =>
    intro row i j hlen
    show (setChars (row.set i c) (i + 1) cs).get? j = _
    rw [ih (row.set i c) (i + 1) j
      (by rw [List.length_set]; simp only [List.length_cons] at hlen; omega)]
    by_cases h1 : i + 1 ≤ j ∧ j < i + 1 + cs.length
    · rw [if_pos h1, if_pos (by simp only [List.length_cons]; omega)]
      have hji : j - i = (j - (i + 1)) + 1 := by omega
      rw [hji]
      rfl
    · rw [if_neg h1]
      by_cases h2 : j = i
      · subst h2
        rw [if_pos (by simp only [List.length_cons]; omega)]
        have hjlen : j < row.length := by
          simp only [List.length_cons] at hlen; omega
        rw [List.get?_set_eq, List.get?_eq_get hjlen]
        have hz : j - j = 0 := by omega
        rw [hz]
        rfl
      · rw [if_neg (by simp only [List.length_cons]; omega)]
        exact List.get?_set_ne c row (by omega)

theorem get?_set_lt {α : Type} (l : List α) (n : Nat) (a : α)
    (h : n < l.length) : (l.set n a).get? n = some a := by
  rw [List.get?_set_eq, List.get?_eq_get h]
  rfl

/-- Reading a cell the insert covered: the inserted characters. -/
theorem bufGet_insert_cov (b : GrowingLineBuffer) (li co : Nat) (cs : List Char)
    (co' : Nat) (hli : 1 ≤ li) (hco : 1 ≤ co)
    (h1 : co ≤ co') (h2 : co' < co + cs.length) :
    bufGet (b.insert li co cs) li co' = cs.get? (co' - co) := by
  simp only [GrowingLineBuffer.insert, bufGet]
  have hidx : li - 1 < (b._data ++
      List.replicate (li + 1 - b._data.length) ([] : List Char)).length := by
    rw [List.length_append, List.length_replicate]; omega
  rw [get?_set_lt _ _ _ hidx, Option.some_bind]
  rw [setChars_get? cs _ (co - 1) (co' - 1)
    (by rw [List.length_append, List.length_replicate]; omega)]
  rw [if_pos (by omega)]
  have hd : co' - 1 - (co - 1) = co' - co := by omega
  rw [hd]

/-- Reading a cell the insert did not cover: either the old value, or (when
the cell did not exist before) a placeholder space or still absent. -/
theorem bufGet_insert_unc (b : GrowingLineBuffer) (li co : Nat) (cs : List Char)
    (li' co' : Nat) (hli : 1 ≤ li) (hco : 1 ≤ co) (hli' : 1 ≤ li')
    (hco' : 1 ≤ co')
    (hunc : ¬(li' = li ∧ co ≤ co' ∧ co' < co + cs.length)) :
    bufGet (b.insert li co cs) li' co' = bufGet b li' co' ∨
    (bufGet b li' co' = none ∧
      (bufGet (b.insert li co cs) li' co' = some ' ' ∨
       bufGet (b.insert li co cs) li' co' = none)) := by
  simp only [GrowingLineBuffer.insert, bufGet]
  by_cases hll : li' = li
  · subst hll
    have hidx : li' - 1 < (b._data ++
        List.replicate (li' + 1 - b._data.length) ([] : List Char)).length := by
      rw [List.length_append, List.length_replicate]; omega
    rw [get?_set_lt _ _ _ hidx, Option.some_bind]
    rw [setChars_get? cs _ (co - 1) (co' - 1)
      (by rw [List.length_append, List.length_replicate]; omega)]
    rw [if_neg (by omega)]
    by_cases hbl : li' - 1 < b._data.length
    · have hrow : (b._data ++
          List.replicate (li' + 1 - b._data.length) ([] : List Char)).getD
          (li' - 1) [] = b._data.getD (li' - 1) [] := by
        rw [List.getD_eq_get?, List.getD_eq_get?, List.get?_append hbl]
      obtain ⟨rowb, hrowb⟩ : ∃ rowb, b._data.get? (li' - 1) = some rowb := by
        rw [List.get?_eq_get hbl]; exact ⟨_, rfl⟩
      have hrow2 : b._data.getD (li' - 1) [] = rowb := by
        rw [List.getD_eq_get?, hrowb]; rfl
      rw [hrow, hrow2, hrowb, Option.some_bind]
      by_cases hcl : co' - 1 < rowb.length
      · left
        rw [List.get?_append hcl]
      · rw [List.get?_append_right (by omega), replicate_get?]
        right
        refine ⟨List.get?_eq_none.mpr (by omega), ?_⟩
        by_cases hsp : co' - 1 - rowb.length <
            co - 1 + cs.length - rowb.length
        · left; rw [if_pos hsp]
        · right; rw [if_neg hsp]
    · have hold : b._data.get? (li' - 1) = none :=
        List.get?_eq_none.mpr (by omega)
      have hrow : (b._data ++
          List.replicate (li' + 1 - b._data.length) ([] : List Char)).getD
          (li' - 1) [] = [] := by
        rw [List.getD_eq_get?, List.get?_append_right (by omega), replicate_get?]
        rw [if_pos (by omega)]
        rfl
      rw [hrow, hold]
      right
      refine ⟨rfl, ?_⟩
      rw [List.nil_append, replicate_get?]
      simp only [List.length_nil, Nat.sub_zero]
      by_cases hsp : co' - 1 < co - 1 + cs.length
      · left; rw [if_pos hsp]
      · right; rw [if_neg hsp]
  · rw [List.get?_set_ne _ _ (by omega)]
    by_cases hbl : li' - 1 < b._data.length
    · left
      rw [List.get?_append hbl]
    · have hold : b._data.get? (li' - 1) = none :=
        List.get?_eq_none.mpr (by omega)
      rw [hold, List.get?_append_right (by omega), replicate_get?]
      by_cases hgl : li' - 1 - b._data.length < li + 1 - b._data.length
      · rw [if_pos hgl]
        left
        rfl
      · rw [if_neg hgl]
        left
        rfl

theorem renderChars_of_content (t : Token) (cs : List Char)
    (h : tokenContent t = some cs) : renderChars t = cs := by
  unfold renderChars
  rw [h]
  rfl

theorem mem_setChars : ∀ (cs row : List Char) (i : Nat) (x : Char),
    x ∈ setChars row i cs → x ∈ row ∨ x ∈ cs := by
  intro cs
  induction cs with
  | nil => intro row i x hx; exact Or.inl hx
  | cons c cs ih =>
    intro row i x hx
    rcases ih (row.set i c) (i + 1) x hx with hx | hx
    · rcases List.mem_or_eq_of_mem_set hx with hx | hx
      · exact Or.inl hx
      · exact Or.inr (by rw [hx]; exact List.mem_cons_self _ _)
    · exact Or.inr (List.mem_cons_of_mem _ hx)

theorem getD_no_nl (G : List (List Char)) (n : Nat)
    (hG : ∀ row ∈ G, '\n' ∉ row) : '\n' ∉ G.getD n [] := by
  by_cases hdl : n < G.length
  · rw [List.getD_eq_get?, List.get?_eq_get hdl]
    simp only [Option.getD_some]
    exact hG _ (List.get_mem G n hdl)
  · rw [List.getD_eq_get?, List.get?_eq_none.mpr (by omega)]
    exact List.not_mem_nil _

theorem insert_no_nl (b : GrowingLineBuffer) (li co : Nat) (cs : List Char)
    (hb : ∀ row ∈ b._data, '\n' ∉ row) (hcs : '\n' ∉ cs) :
    ∀ row ∈ (b.insert li co cs)._data, '\n' ∉ row := by
  have hG : ∀ row ∈ b._data ++
      List.replicate (li + 1 - b._data.length) ([] : List Char), '\n' ∉ row := by
    intro row hrow
    rcases List.mem_append.mp hrow with hrow | hrow
    · exact hb row hrow
    · rw [List.eq_of_mem_replicate hrow]
      exact List.not_mem_nil _
  intro row hrow
  simp only [GrowingLineBuffer.insert] at hrow
  rcases List.mem_or_eq_of_mem_set hrow with hrow | hrow
  · exact hG row hrow
  · subst hrow
    intro hnl
    rcases mem_setChars cs _ (co - 1) '\n' hnl with hnl | hnl
    · rcases List.mem_append.mp hnl with hnl | hnl
      · exact getD_no_nl _ (li - 1) hG hnl
      · have := List.eq_of_mem_replicate hnl
        cases this
    · exact hcs hnl

theorem renderTokens_no_nl : ∀ (rest : List Token) (b b' : GrowingLineBuffer),
    (∀ t ∈ rest, '\n' ∉ renderChars t) → (∀ row ∈ b._data, '\n' ∉ row) →
    renderTokens b rest = some b' → ∀ row ∈ b'._data, '\n' ∉ row := by
  intro rest
  induction rest with
  | nil =>
    intro b b' _ hb h
    obtain rfl : b = b' := by injection h
    exact hb
  | cons t rest ih =>
    intro b b' hrest hb h
    unfold renderTokens at h
    cases hct : tokenContent t with
    | none => rw [hct] at h; exact Option.noConfusion h
    | some cs =>
      rw [hct] at h
      exact ih _ b' (fun t' ht' => hrest t' (List.mem_cons_of_mem _ ht'))
        (insert_no_nl b t.line t.col cs hb
          (by rw [← renderChars_of_content t cs hct]
              exact hrest t (List.mem_cons_self _ _))) h

theorem occupiedBy_append (a b : List Token) (li co : Nat) :
    occupiedBy (a ++ b) li co = (occupiedBy a li co || occupiedBy b li co) := by
  simp [occupiedBy, List.any_append]

theorem occupiedBy_singleton (t : Token) (li co : Nat) :
    occupiedBy [t] li co = true ↔
    (t.line = li ∧ t.col ≤ co ∧ co < t.col + (renderChars t).length) := by
  simp [occupiedBy, and_assoc]

theorem cellAt_some_of_occupied (src : List Char) (pre : List Token)
    (li co : Nat)
    (hfits : ∀ t' ∈ pre, tokenFits src t' ∧ 1 ≤ t'.line ∧ 1 ≤ t'.col)
    (hocc : occupiedBy pre li co = true) :
    ∃ v, cellAt (splitLines src) li co = some v := by
  rw [occupiedBy, List.any_eq_true] at hocc
  obtain ⟨t', ht', hf⟩ := hocc
  simp only [Bool.and_eq_true, beq_iff_eq, decide_eq_true_eq] at hf
  obtain ⟨⟨hL, hc1⟩, hc2⟩ := hf
  obtain ⟨hfit, _, _⟩ := hfits t' ht'
  have hcell := hfit (co - t'.col) (by omega)
  rw [show t'.col + (co - t'.col) = co by omega, hL] at hcell
  rw [hcell, List.get?_eq_get (by omega)]
  exact ⟨_, rfl⟩

theorem renderTokens_cells :
    ∀ (rest pre : List Token) (src : List Char) (b b' : GrowingLineBuffer),
      (∀ t ∈ rest, tokenFits src t ∧ 1 ≤ t.line ∧ 1 ≤ t.col) →
      (∀ t ∈ pre, tokenFits src t ∧ 1 ≤ t.line ∧ 1 ≤ t.col) →
      renderTokens b rest = some b' →
      (∀ li co, 1 ≤ li → 1 ≤ co →
        (occupiedBy pre li co = true →
          bufGet b li co = cellAt (splitLines src) li co) ∧
        (occupiedBy pre li co = false →
          bufGet b li co = some ' ' ∨ bufGet b li co = none)) →
      (∀ li co, 1 ≤ li → 1 ≤ co →
        (occupiedBy (pre ++ rest) li co = true →
          bufGet b' li co = cellAt (splitLines src) li co) ∧
        (occupiedBy (pre ++ rest) li co = false →
          bufGet b' li co = some ' ' ∨ bufGet b' li co = none)) := by
  intro rest
  induction rest with
  | nil =>
    intro pre src b b' _ _ h hspec
    obtain rfl : b = b' := by injection h
    simpa using hspec
  | cons t rest ih =>
    intro pre src b b' hrest hpre h hspec
    unfold renderTokens at h
    cases hct : tokenContent t with
    | none => rw [hct] at h; exact Option.noConfusion h
    | some cs =>
      rw [hct] at h
      have hrc : renderChars t = cs := renderChars_of_content t cs hct
      obtain ⟨hfit_t, hl1, hc1⟩ := hrest t (List.mem_cons_self _ _)
      have hmid : ∀ li co, 1 ≤ li → 1 ≤ co →
          (occupiedBy (pre ++ [t]) li co = true →
            bufGet (b.insert t.line t.col cs) li co =
              cellAt (splitLines src) li co) ∧
          (occupiedBy (pre ++ [t]) li co = false →
            bufGet (b.insert t.line t.col cs) li co = some ' ' ∨
            bufGet (b.insert t.line t.col cs) li co = none) := by
        intro li co hli hco
        constructor
        · intro hocc
          by_cases hcov : li = t.line ∧ t.col ≤ co ∧ co < t.col + cs.length
          · obtain ⟨hLi, hc2, hc3⟩ := hcov
            rw [hLi, bufGet_insert_cov b t.line t.col cs co hl1 hc1 hc2 hc3]
            have hcell := hfit_t (co - t.col) (by rw [hrc]; omega)
            rw [show t.col + (co - t.col) = co by omega, hrc] at hcell
            rw [hcell]
          · rw [occupiedBy_append] at hocc
            rcases (by simpa using hocc : occupiedBy pre li co = true ∨
                occupiedBy [t] li co = true) with hop | hot
            · have hold := (hspec li co hli hco).1 hop
              obtain ⟨v, hv⟩ := cellAt_some_of_occupied src pre li co hpre hop
              rcases bufGet_insert_unc b t.line t.col cs li co hl1 hc1 hli hco
                  hcov with hnew | ⟨hnone, _⟩
              · rw [hnew, hold]
              · rw [hold, hv] at hnone
                exact Option.noConfusion hnone
            · exact absurd (by
                obtain ⟨x1, x2, x3⟩ := (occupiedBy_singleton t li co).mp hot
                rw [hrc] at x3
                exact ⟨x1.symm, x2, x3⟩) hcov
        · intro hocc
          rw [occupiedBy_append, Bool.or_eq_false_iff] at hocc
          obtain ⟨hop, hot⟩ := hocc
          have hcov : ¬(li = t.line ∧ t.col ≤ co ∧ co < t.col + cs.length) := by
            intro ⟨x1, x2, x3⟩
            rw [(occupiedBy_singleton t li co).mpr
              ⟨x1.symm, x2, by rw [hrc]; exact x3⟩] at hot
            exact Bool.noConfusion hot
          rcases bufGet_insert_unc b t.line t.col cs li co hl1 hc1 hli hco
              hcov with hnew | ⟨_, hx⟩
          · rw [hnew]
            exact (hspec li co hli hco).2 hop
          · exact hx
      have hfin := ih (pre ++ [t]) src (b.insert t.line t.col cs) b'
        (fun t' ht' => hrest t' (List.mem_cons_of_mem _ ht'))
        (fun t' ht' => by
          rcases List.mem_append.mp ht' with hx | hx
          · exact hpre t' hx
          · rcases List.mem_singleton.mp hx with rfl
            exact ⟨hfit_t, hl1, hc1⟩)
        h hmid
      intro li co hli hco
      have := hfin li co hli hco
      rw [List.append_assoc, List.singleton_append] at this
      exact this

theorem intercalate_nl_nil : List.intercalate ['\n'] ([] : List (List Char)) = [] := by
  simp [List.intercalate, List.intersperse]

theorem intercalate_nl_single (r : List Char) :
    List.intercalate ['\n'] [r] = r := by
  simp [List.intercalate, List.intersperse]

theorem intercalate_nl_cons2 (a b : List Char) (t : List (List Char)) :
    List.intercalate ['\n'] (a :: b :: t) =
      a ++ '\n' :: List.intercalate ['\n'] (b :: t) := by
  simp [List.intercalate, List.intersperse]

theorem splitLines_no_nl : ∀ (r : List Char), '\n' ∉ r → splitLines r = [r] := by
  intro r
  induction r with
  | nil => intro _; rfl
  | cons c rest ih =>
    intro h
    have hc : c ≠ '\n' := fun hx => h (hx ▸ List.mem_cons_self _ _)
    rw [splitLines_cons_ne c rest hc, ih (fun hx => h (List.mem_cons_of_mem _ hx))]

theorem splitLines_prepend : ∀ (r X : List Char), '\n' ∉ r →
    splitLines (r ++ '\n' :: X) = r :: splitLines X := by
  intro r
  induction r with
  | nil => intro X _; exact splitLines_cons_nl X
  | cons c rest ih =>
    intro X h
    have hc : c ≠ '\n' := fun hx => h (hx ▸ List.mem_cons_self _ _)
    rw [List.cons_append, splitLines_cons_ne c _ hc,
      ih X (fun hx => h (List.mem_cons_of_mem _ hx))]

theorem cellAt_intercalate : ∀ (rows : List (List Char)),
    (∀ r ∈ rows, '\n' ∉ r) → ∀ li co,
    cellAt (splitLines (List.intercalate ['\n'] rows)) li co =
      (rows.get? (li - 1)).bind fun row => row.get? (co - 1) := by
  intro rows
  induction rows with
  | nil =>
    intro _ li co
    rw [intercalate_nl_nil]
    show cellAt [[]] li co = _
    simp only [cellAt]
    cases hl : li - 1 with
    | zero => simp
    | succ n => simp
  | cons a rows ih =>
    intro hf li co
    cases rows with
    | nil =>
      rw [intercalate_nl_single, splitLines_no_nl a (hf a (List.mem_cons_self _ _))]
      rfl
    | cons b t =>
      rw [intercalate_nl_cons2,
        splitLines_prepend a _ (hf a (List.mem_cons_self _ _))]
      simp only [cellAt]
      cases hl : li - 1 with
      | zero => simp
      | succ n =>
        have hrec := ih (fun r hr => hf r (List.mem_cons_of_mem _ hr)) (n + 1) co
        simp only [cellAt, Nat.add_sub_cancel] at hrec
        simp only [List.get?_cons_succ]
        exact hrec

/-- C1 (amended): for any successful scan whose tokens each render without a
newline, the reconstruction `tokens_to_src` agrees with the original source at
every cell occupied by some token's rendered text, and every unoccupied cell of
the reconstruction holds either a placeholder space or nothing.  (The full
round-trip claim of the spec is refuted by `C1_counterexample_trailing_line`:
the reconstruction's line structure can differ from the source's, e.g. by a
trailing newline.) -/
theorem C1_reconstruction_agrees_at_occupied_cells
    (fuel : Nat) (src : String) (toks : List Token) (out : String)
    (hlex : Lexer.lex fuel src = .ok toks)
    (hnl : ∀ t ∈ toks, '\n' ∉ renderChars t)
    (hout : tokens_to_src toks = some out) :
    ∀ li co, 1 ≤ li → 1 ≤ co →
      (occupiedBy toks li co = true →
        cellAt (splitLines out.toList) li co =
          cellAt (splitLines src.toList) li co) ∧
      (occupiedBy toks li co = false →
        cellAt (splitLines out.toList) li co = some ' ' ∨
        cellAt (splitLines out.toList) li co = none) := by
  obtain ⟨lf, hinv, htoks, hsrc⟩ :=
    Lexer.lex_loop_inv fuel (Lexer.init src) toks (LexInv_init src) hlex
  have hsrc' : lf.src = src.toList := hsrc
  have hfits : ∀ t ∈ toks, tokenFits src.toList t ∧ 1 ≤ t.line ∧ 1 ≤ t.col := by
    intro t ht
    refine ⟨hsrc' ▸ hinv.fits t (htoks ▸ ht) (hnl t ht), hinv.pos1 t (htoks ▸ ht)⟩
  unfold tokens_to_src at hout
  cases hrb : renderTokens ⟨[]⟩ toks with
  | none => rw [hrb] at hout; exact Option.noConfusion hout
  | some bf =>
    rw [hrb] at hout
    have hb : out = bf.toStr := by
      injection hout with h
      exact h.symm
    have hcells := renderTokens_cells toks [] src.toList ⟨[]⟩ bf hfits
      (fun t ht => absurd ht (List.not_mem_nil t)) hrb
      (fun li co hli hco =>
        ⟨fun hocc => absurd hocc (by simp [occupiedBy]),
         fun _ => Or.inr (by simp [bufGet])⟩)
    have hrows : ∀ row ∈ bf._data, '\n' ∉ row :=
      renderTokens_no_nl toks ⟨[]⟩ bf hnl
        (fun row hrow => absurd hrow (List.not_mem_nil row)) hrb
    have hcell_out : ∀ li co, cellAt (splitLines out.toList) li co =
        bufGet bf li co := by
      intro li co
      have hlist : out.toList = List.intercalate ['\n'] bf._data := by
        rw [hb]; rfl
      rw [hlist, cellAt_intercalate bf._data hrows li co]
      rfl
    intro li co hli hco
    refine ⟨fun hocc => ?_, fun hocc => ?_⟩
    · rw [hcell_out]
      exact (hcells li co hli hco).1 hocc
    · rw [hcell_out li co]
      exact (hcells li co hli hco).2 hocc

theorem C1_witness :
    (Lexer.lex 10 "a" = .ok [⟨1, 1, .instance_name, some "a"⟩] ∧
      (∀ t ∈ [(⟨1, 1, .instance_name, some "a"⟩ : Token)], '\n' ∉ renderChars t) ∧
      tokens_to_src [⟨1, 1, .instance_name, some "a"⟩] = some "a\n") ∧
    (cellAt (splitLines (String.toList "a\n")) 1 1 =
      cellAt (splitLines (String.toList "a")) 1 1) ∧
    (cellAt (splitLines (String.toList "a\n")) 2 1 = some ' ' ∨
      cellAt (splitLines (String.toList "a\n")) 2 1 = none) :=
  ⟨⟨rfl, by decide, by decide⟩,
   (C1_reconstruction_agrees_at_occupied_cells 10 "a"
      [⟨1, 1, .instance_name, some "a"⟩] "a\n" rfl (by decide) (by decide)
      1 1 (by decide) (by decide)).1 (by decide),
   (C1_reconstruction_agrees_at_occupied_cells 10 "a"
      [⟨1, 1, .instance_name, some "a"⟩] "a\n" rfl (by decide) (by decide)
      2 1 (by decide) (by decide)).2 (by decide)⟩
